import Mathlib

/-!
Verification of the research-mcp repository's core logic against its
natural-language specification.

The Python sources are shallowly embedded: pure string-processing
functions become Lean functions on `List Char` / `String`, the job store
becomes explicit state passing on a `Job` structure, and exceptional
control flow becomes `Except`.  Timestamps are modelled as rationals
(seconds), Python `int` as `Int`, Python `float` division as rational
division.

The `urllib.parse` dependency (CPython 3.11, `urlsplit` / `urlparse` /
`urlunparse` / `_splitparams`) is embedded at character level below,
covering scheme recognition, netloc splitting with the bracket-mismatch
`ValueError`, fragment/query splitting, params splitting and
reassembly.  Simplifications relative to CPython, none of which affect
the theorems' inputs: WHATWG control-character removal, IDNA/NFKC
netloc checks and the numeric validation of bracketed IPv6 hosts are
not modelled, and `str.lower`/`str.strip` are modelled on ASCII.
-/

namespace ResearchMcp

/-- Lowercase one character, as Python `str.lower` acts on ASCII:
codepoints 65-90 move up by 32, everything else is unchanged. -/
def lowerChar (c : Char) : Char :=
  if 65 ≤ c.toNat ∧ c.toNat ≤ 90 then Char.ofNat (c.toNat + 32) else c

/-- Lowercase a character list. -/
def lower (l : List Char) : List Char := l.map lowerChar

/-- ASCII letter (Python `c.isascii() and c.isalpha()`). -/
def isAsciiAlpha (c : Char) : Bool :=
  decide ((65 ≤ c.toNat ∧ c.toNat ≤ 90) ∨ (97 ≤ c.toNat ∧ c.toNat ≤ 122))

/-- ASCII digit. -/
def isAsciiDigit (c : Char) : Bool :=
  decide (48 ≤ c.toNat ∧ c.toNat ≤ 57)

/-- ASCII whitespace, the characters Python `str.strip()` removes. -/
def isSpace (c : Char) : Bool :=
  decide (c.toNat = 32 ∨ c.toNat = 9 ∨ c.toNat = 10 ∨ c.toNat = 13 ∨
    c.toNat = 11 ∨ c.toNat = 12)

/-- Remove trailing characters satisfying `p` (Python `str.rstrip`). -/
def rstripBy (p : Char → Bool) (l : List Char) : List Char :=
  (l.reverse.dropWhile p).reverse

/-- Python `str.strip()`: remove leading and trailing whitespace. -/
def stripWs (l : List Char) : List Char :=
  rstripBy isSpace (l.dropWhile isSpace)

/-- Python `str.rstrip("/")`: remove all trailing slashes. -/
def rstripSlashes (l : List Char) : List Char :=
  rstripBy (fun c => c == '/') l

/-- Characters allowed in a URL scheme (`urllib.parse.scheme_chars`). -/
def isSchemeChar (c : Char) : Bool :=
  isAsciiAlpha c || isAsciiDigit c || c == '+' || c == '-' || c == '.'

/-- Result of `urllib.parse.urlsplit`: scheme, netloc, path, query, fragment. -/
structure SplitUrl where
  scheme : List Char
  netloc : List Char
  path : List Char
  query : List Char
  fragment : List Char
  deriving Repr, DecidableEq

/-- Result of `urllib.parse.urlparse`: `urlsplit` plus the params component. -/
structure PyParsed where
  scheme : List Char
  netloc : List Char
  path : List Char
  params : List Char
  query : List Char
  fragment : List Char
  deriving Repr, DecidableEq

/-- Scheme recognition step of `urlsplit`: if the text before the first
colon is a nonempty run of scheme characters starting with a letter, it
is split off and lowercased; otherwise the scheme is empty. -/
def splitScheme (url : List Char) : List Char × List Char :=
  let pre := url.takeWhile (fun c => c != ':')
  if pre.length < url.length ∧ pre ≠ [] ∧ isAsciiAlpha (url.headD ' ') ∧ pre.all isSchemeChar then
    (lower pre, url.drop (pre.length + 1))
  else ([], url)

/-- Split `rest` at the first `'#'` into fragment, then the remainder at
the first `'?'` into query, as `urlsplit` does with `allow_fragments`. -/
def splitFragQuery (rest : List Char) : List Char × List Char × List Char :=
  let pqf :=
    if rest.contains '#' then
      (rest.takeWhile (fun c => c != '#'), (rest.dropWhile (fun c => c != '#')).drop 1)
    else (rest, [])
  let pq :=
    if pqf.1.contains '?' then
      (pqf.1.takeWhile (fun c => c != '?'), (pqf.1.dropWhile (fun c => c != '?')).drop 1)
    else (pqf.1, [])
  (pq.1, pq.2, pqf.2)

/-- Characters that terminate the netloc in `_splitnetloc`. -/
def isNetlocEnd (c : Char) : Bool := c == '/' || c == '?' || c == '#'

/-- Embedding of `urllib.parse.urlsplit` (default arguments).  The
`ValueError` raised on a netloc containing `'['` without `']'` (or vice
versa) becomes `Except.error`. -/
def urlsplitL (url : List Char) : Except Unit SplitUrl :=
  let sr := splitScheme url
  if sr.2.take 2 = ['/', '/'] then
    let body := sr.2.drop 2
    let netloc := body.takeWhile (fun c => !isNetlocEnd c)
    let rest2 := body.dropWhile (fun c => !isNetlocEnd c)
    if (netloc.contains '[' ∧ ¬ netloc.contains ']') ∨
       (netloc.contains ']' ∧ ¬ netloc.contains '[') then
      .error ()
    else
      let fq := splitFragQuery rest2
      .ok ⟨sr.1, netloc, fq.1, fq.2.1, fq.2.2⟩
  else
    let fq := splitFragQuery sr.2
    .ok ⟨sr.1, [], fq.1, fq.2.1, fq.2.2⟩

/-- Schemes for which `urlparse` splits params (`urllib.parse.uses_params`). -/
def usesParams : List (List Char) :=
  ["", "ftp", "hdl", "prospero", "http", "imap", "https", "shttp", "rtsp",
   "rtsps", "rtspu", "sip", "sips", "mms", "sftp", "tel"].map String.toList

/-- Schemes for which `urlunsplit` reinstates a `//` (`urllib.parse.uses_netloc`). -/
def usesNetloc : List (List Char) :=
  ["", "ftp", "http", "gopher", "nntp", "telnet", "imap", "wais", "file",
   "mms", "https", "shttp", "snews", "prospero", "rtsp", "rtsps", "rtspu",
   "rsync", "svn", "svn+ssh", "sftp", "nfs", "git", "git+ssh", "ws",
   "wss"].map String.toList

/-- Split a list around its first occurrence of `c` (meaningful only
when `c` occurs, as at its call sites). -/
def splitFirstAt (c : Char) (l : List Char) : List Char × List Char :=
  (l.takeWhile (fun x => x != c), (l.dropWhile (fun x => x != c)).drop 1)

/-- Split a list around its last `'/'`: `some (a, b)` with
`l = a ++ '/' :: b` and `'/' ∉ b`, or `none` when there is no slash. -/
def splitLastSlash : List Char → Option (List Char × List Char)
  | [] => none
  | x :: xs =>
    match splitLastSlash xs with
    | some p => some (x :: p.1, p.2)
    | none => if x = '/' then some ([], xs) else none

/-- Embedding of the params step of `urlparse` (`_splitparams` guarded by
`scheme in uses_params and ';' in url`): the params are split off after
the last `'/'` (or from the whole path when it has no slash). -/
def splitParamsPy (scheme path : List Char) : List Char × List Char :=
  if scheme ∈ usesParams ∧ path.contains ';' then
    match splitLastSlash path with
    | some ab =>
      if ab.2.contains ';' then
        let s := splitFirstAt ';' ab.2
        (ab.1 ++ '/' :: s.1, s.2)
      else (path, [])
    | none => splitFirstAt ';' path
  else (path, [])

/-- Embedding of `urllib.parse.urlparse` (default arguments). -/
def urlparseL (url : List Char) : Except Unit PyParsed :=
  match urlsplitL url with
  | .error e => .error e
  | .ok r =>
    let pp := splitParamsPy r.scheme r.path
    .ok ⟨r.scheme, r.netloc, pp.1, pp.2, r.query, r.fragment⟩

/-- Embedding of `urllib.parse.urlunsplit` at the `normalize_url` call
site, where params, query and fragment are all empty. -/
def urlunsplitL (scheme netloc path : List Char) : List Char :=
  let url :=
    if netloc ≠ [] ∨ (scheme ≠ [] ∧ scheme ∈ usesNetloc ∧ path.take 2 ≠ ['/', '/']) then
      let p := if path ≠ [] ∧ path.take 1 ≠ ['/'] then '/' :: path else path
      '/' :: '/' :: (netloc ++ p)
    else path
  if scheme ≠ [] then scheme ++ ':' :: url else url

/-- Embedding of `CitationProcessor.normalize_url`
(`citation_processor.py` lines 33-63): parse the stripped URL, lowercase
scheme, netloc and slash-stripped path, drop params, query and fragment,
and reassemble; on a parse error fall back to the stripped, lowercased
input. -/
def normalizeUrlL (url : List Char) : List Char :=
  match urlparseL (stripWs url) with
  | .ok p => urlunsplitL (lower p.scheme) (lower p.netloc) (lower (rstripSlashes p.path))
  | .error _ => lower (stripWs url)

/-- String-level wrapper of `normalizeUrlL`. -/
def normalize_url (u : String) : String := (normalizeUrlL u.toList).asString

/-!
Citation processing (`citation_processor.py`).  A synthesis text is
modelled structurally: the running text is a list of tokens, where
`Tok.ref l` stands for an in-text bracketed reference `[l]` (`l` the
digit run matched by `\[(\d+)\]`) and `Tok.txt` for any other stretch of
text; the optional Sources section (the region `extract_sources_section`
matches after a `## Sources` header) is a list of lines, each either a
citation line matching the grammar
`[<label>] <site> – "<title>" – <url>` — with the fields as the regex in
`extract_citations` captures and strips them — or unparseable junk.
-/

/-- One parsed citation line (`CitationEntry` in the source). -/
structure Entry where
  oldNum : String
  siteName : String
  title : String
  url : String
  deriving Repr, DecidableEq

/-- One line of the Sources section: a parseable citation entry or junk
that `extract_citations` skips. -/
inductive SrcLine
  | entry (e : Entry)
  | junk (s : String)
  deriving Repr, DecidableEq

/-- One token of the running text. -/
inductive Tok
  | ref (label : String)
  | txt (s : String)
  deriving Repr, DecidableEq

/-- A synthesis text: running text plus optional Sources section.
`sources = none` covers both a missing and an empty section (both falsy
in the `if not sources_section` guard). -/
structure Doc where
  body : List Tok
  sources : Option (List SrcLine)
  deriving Repr, DecidableEq

/-- Embedding of `extract_citations`: the parseable lines, in order. -/
def extractCitations (lines : List SrcLine) : List Entry :=
  lines.filterMap (fun l => match l with | .entry e => some e | .junk _ => none)

/-- Value stored in the `url_to_citation` dict of
`deduplicate_citation_urls`. -/
structure UrlInfo where
  newNum : Nat
  siteName : String
  title : String
  originalUrl : String
  oldNums : List String
  deriving Repr, DecidableEq

/-- Append `old` to the `old_nums` of the info stored under `key`
(the `else` branch of the dict-building loop). -/
def addOldNum (key old : String) : List (String × UrlInfo) → List (String × UrlInfo)
  | [] => []
  | p :: rest =>
    if p.1 = key then (p.1, { p.2 with oldNums := p.2.oldNums ++ [old] }) :: rest
    else p :: addOldNum key old rest

/-- Loop of `deduplicate_citation_urls` building `url_to_citation`: an
insertion-ordered association list keyed by normalized URL, with
`citation_counter` threaded through. -/
def buildUrlMapGo : List Entry → List (String × UrlInfo) → Nat → List (String × UrlInfo)
  | [], acc, _ => acc
  | c :: cs, acc, counter =>
    let key := normalize_url c.url
    if (acc.lookup key).isSome then
      buildUrlMapGo cs (addOldNum key c.oldNum acc) counter
    else
      buildUrlMapGo cs (acc ++ [(key, ⟨counter, c.siteName, c.title, c.url, [c.oldNum]⟩)]) (counter + 1)

/-- The `url_to_citation` dict, keyed by normalized URL in first-seen
order, with new numbers assigned from 1. -/
def buildUrlMap (cs : List Entry) : List (String × UrlInfo) :=
  buildUrlMapGo cs [] 1

/-- Python-dict insertion: an existing key keeps its position and gets
the new value, a new key is appended. -/
def insertAssoc (k v : String) : List (String × String) → List (String × String)
  | [] => [(k, v)]
  | p :: rest => if p.1 = k then (k, v) :: rest else p :: insertAssoc k v rest

/-- The `old_to_new_mapping` dict: for each URL info in order, each of
its old numbers is mapped to the string of its new number. -/
def buildMapping (infos : List (String × UrlInfo)) : List (String × String) :=
  infos.foldl
    (fun m p => p.2.oldNums.foldl (fun m' o => insertAssoc o (toString p.2.newNum) m') m) []

/-- One `re.sub(rf"\[{old}\]", f"[{new}]", text)` step on a token:
references labelled `old` become references labelled `new`. -/
def substTok (old new : String) : Tok → Tok
  | .ref l => if l = old then .ref new else .ref l
  | .txt s => .txt s

/-- The replacement loop of `deduplicate_citation_urls`: the `re.sub`
steps are applied one after another, in mapping order. -/
def applyMapping (m : List (String × String)) (body : List Tok) : List Tok :=
  m.foldl (fun b p => b.map (substTok p.1 p.2)) body

/-- Rebuilt Sources section: one line
`[new_num] site – "title" – original_url` per stored URL info. -/
def rebuildLines (infos : List (String × UrlInfo)) : List SrcLine :=
  infos.map (fun p => .entry ⟨toString p.2.newNum, p.2.siteName, p.2.title, p.2.originalUrl⟩)

/-- Result of `deduplicate_citation_urls` (`DeduplicationResult`). -/
structure DeduplicationResult where
  updatedText : Doc
  deduplicatedCount : Nat
  finalCount : Nat
  deriving Repr, DecidableEq

/-- Embedding of `CitationProcessor.deduplicate_citation_urls`
(`citation_processor.py` lines 124-214): group the section's citations
by normalized URL in first-seen order, renumber from 1, apply the
old-to-new replacements sequentially to the running text, and replace
the Sources section with one rebuilt line per normalized URL. -/
def deduplicate_citation_urls (d : Doc) : DeduplicationResult :=
  match d.sources with
  | none => ⟨d, 0, 0⟩
  | some lines =>
    let citations := extractCitations lines
    if citations = [] then ⟨d, 0, 0⟩
    else
      let infos := buildUrlMap citations
      let mapping := buildMapping infos
      ⟨⟨applyMapping mapping d.body, some (rebuildLines infos)⟩,
        citations.length - infos.length, infos.length⟩

/-- Simultaneous reading of the old-to-new mapping: the label a
reference ends up with exactly when its original label is mapped there,
namely its mapped label (or itself when unmapped). -/
def lookupLabel (m : List (String × String)) (l : String) : String :=
  (m.lookup l).getD l

/-- Simultaneous rewrite of one token under the whole mapping. -/
def simulSub (m : List (String × String)) : Tok → Tok
  | .ref l => .ref (lookupLabel m l)
  | .txt s => .txt s

/-- No replacement's target equals a later replacement's source — the
condition under which the sequential `re.sub` loop of the code agrees
with the simultaneous rewrite. -/
def NoChain : List (String × String) → Prop
  | [] => True
  | p :: m => (∀ q ∈ m, q.1 ≠ p.2) ∧ NoChain m

instance decNoChain : (m : List (String × String)) → Decidable (NoChain m)
  | [] => .isTrue trivial
  | p :: m =>
    haveI := decNoChain m
    inferInstanceAs (Decidable ((∀ q ∈ m, q.1 ≠ p.2) ∧ NoChain m))

/-- Proof device: the `url_to_citation` association list produced when
every citation's normalized URL is fresh — each entry gets the next
counter value and a singleton `old_nums`. -/
def buildFresh (k : Nat) : List Entry → List (String × UrlInfo)
  | [] => []
  | c :: cs =>
    (normalize_url c.url, ⟨k + 1, c.siteName, c.title, c.url, [c.oldNum]⟩) ::
      buildFresh (k + 1) cs

/-- Sources lines of the spec's collapse scenario: labels 1, 5 and 9
citing three spellings of the same URL. -/
def scenarioLines : List SrcLine :=
  [.entry ⟨"1", "Site", "Title", "https://a.com/x"⟩,
   .entry ⟨"5", "Other", "T2", "https://a.com/x/?ref=1"⟩,
   .entry ⟨"9", "Third", "T3", "https://A.com/x/"⟩]

/-- The spec's collapse scenario: a synthesis citing `[1]`, `[5]` and
`[9]`, all three resolving to the same normalized URL. -/
def scenarioDoc : Doc :=
  ⟨[.ref "1", .txt "text", .ref "5", .ref "9"], some scenarioLines⟩

/-!
Source tracking (`source_tracker.py`).  The `tracked_urls` set is a
`Finset String`; `get_all_sources` sorts it.
-/

/-- Embedding of `get_cited_urls_from_synthesis`: the normalized URLs of
the citation lines in the Sources section (the URLs that
`extract_urls_from_text` finds there are the citation-line URLs). -/
def getCitedUrls (d : Doc) : List String :=
  match d.sources with
  | none => []
  | some lines => (extractCitations lines).map (fun e => normalize_url e.url)

/-- Embedding of `SourceTracker.get_all_sources`: the tracked set as a
sorted list. -/
def get_all_sources (tracked : Finset String) : List String :=
  tracked.sort (· ≤ ·)

/-- Embedding of `SourceTracker.get_additional_sources`: tracked sources
whose normalized form is not among the cited URLs. -/
def get_additional_sources (tracked : Finset String) (d : Doc) : List String :=
  (get_all_sources tracked).filter (fun s => !((getCitedUrls d).contains (normalize_url s)))

/-- Result of `get_source_statistics`. -/
structure SourceStatistics where
  totalSources : Int
  citedSources : Int
  additionalSources : Int
  citationRate : ℚ
  deriving Repr, DecidableEq

/-- Embedding of `SourceTracker.get_source_statistics`
(`source_tracker.py` lines 70-89). -/
def get_source_statistics (tracked : Finset String) (d : Doc) : SourceStatistics :=
  let allSources := get_all_sources tracked
  let additional := get_additional_sources tracked d
  let cited : Int := (allSources.length : Int) - (additional.length : Int)
  { totalSources := allSources.length
    citedSources := cited
    additionalSources := additional.length
    citationRate := if allSources ≠ [] then (cited : ℚ) / (allSources.length : ℚ) else 0 }

/-!
Job store (`mcp_server/server.py`).  A job record is one entry of the
`_research_jobs` dict; timestamps are rationals (seconds).  For
`started_at` the model distinguishes key absence (outer `none`, what the
`"started_at" not in ...` test checks) from a stored `None` (inner
`none`, what `create_job` writes).
-/

/-- The `JobStatus` constants. -/
inductive JobStatus
  | pending
  | inProgress
  | completed
  | failed
  deriving Repr, DecidableEq

/-- The `progress` sub-dict of a job. -/
structure JobProgress where
  subtopicsTotal : Int
  subtopicsCompleted : Int
  currentSubtopic : Option String
  estimatedRemaining : Option String
  deriving Repr, DecidableEq

/-- One job record. -/
structure Job where
  topic : String
  status : JobStatus
  createdAt : ℚ
  startedAt : Option (Option ℚ)
  completedAt : Option ℚ
  result : Option String
  error : Option String
  progress : JobProgress
  deriving DecidableEq

/-- Embedding of `create_job` (`server.py` lines 61-80): a fresh pending
record whose `started_at` key is present with value `None`. -/
def create_job (now : ℚ) (topic : String) : Job :=
  { topic := topic
    status := .pending
    createdAt := now
    startedAt := some none
    completedAt := none
    result := none
    error := none
    progress := ⟨0, 0, none, none⟩ }

/-- Embedding of `update_job_status` (`server.py` lines 88-103).
`result?` / `error?` model the presence of the corresponding keyword
arguments.  Note the guard on `started_at` tests key absence. -/
def update_job_status (now : ℚ) (status : JobStatus)
    (result? error? : Option String) (j : Job) : Job :=
  let j1 := { j with status := status }
  let j2 :=
    if status = .inProgress ∧ j1.startedAt = none then
      { j1 with startedAt := some (some now) }
    else if status = .completed ∨ status = .failed then
      { j1 with completedAt := some now }
    else j1
  let j3 := match result? with
            | some r => { j2 with result := some r }
            | none => j2
  match error? with
  | some e => { j3 with error := some e }
  | none => j3

/-- Python `int()` on a rational: truncation toward zero. -/
def pyTrunc (q : ℚ) : Int := if q < 0 then ⌈q⌉ else ⌊q⌋

/-- The `f"{x // 60}m {x % 60}s"` format (Python floor division). -/
def fmtRemaining (e : Int) : String :=
  toString (Int.fdiv e 60) ++ "m " ++ toString (Int.fmod e 60) ++ "s"

/-- Embedding of `update_job_progress` (`server.py` lines 110-137):
store the counters, update the current subtopic when truthy, and — when
both counters are positive and `job.get("started_at")` is an actual
timestamp — store the estimate
`int(elapsed / completed * (total - completed))` formatted as minutes
and seconds. -/
def update_job_progress (now : ℚ) (total completed : Int)
    (current : Option String) (j : Job) : Job :=
  let p1 := { j.progress with subtopicsTotal := total, subtopicsCompleted := completed }
  let p2 := match current with
            | some s => if s ≠ "" then { p1 with currentSubtopic := some s } else p1
            | none => p1
  let p3 :=
    if total > 0 ∧ completed > 0 then
      match j.startedAt.bind id with
      | some t0 =>
        let avgTimePerSubtopic : ℚ := (now - t0) / (completed : ℚ)
        let est := pyTrunc (avgTimePerSubtopic * ((total - completed : Int) : ℚ))
        { p2 with estimatedRemaining := some (fmtRemaining est) }
      | none => p2
    else p2
  { j with progress := p3 }

/-!
Background execution (`execute_research_job_sync`, `server.py` lines
139-202): the unit first writes `in_progress`, then issues progress
updates through the callbacks, and finally writes exactly one terminal
status — `completed` with a result or `failed` with an error.
-/

/-- One progress-callback invocation. -/
structure ProgOp where
  now : ℚ
  total : Int
  completed : Int
  current : Option String

/-- How the background unit ends: `result + Completed` or
`error + Failed`. -/
inductive BgOutcome
  | success (result : String)
  | failure (error : String)

/-- Apply one progress update. -/
def applyProg (j : Job) (op : ProgOp) : Job :=
  update_job_progress op.now op.total op.completed op.current j

/-- Apply the terminal status write. -/
def applyOutcome (now : ℚ) : BgOutcome → Job → Job
  | .success r => update_job_status now .completed (some r) none
  | .failure e => update_job_status now .failed none (some e)

/-- The job states reached while the progress updates run, starting
from (and including) `j`. -/
def progStates (j : Job) : List ProgOp → List Job
  | [] => [j]
  | op :: ops => j :: progStates (applyProg j op) ops

/-- Every job state of one background execution, in order: the freshly
created record, the `in_progress` record, the states after each progress
update, and the terminal record. -/
def bgStates (topic : String) (t0 t1 : ℚ) (ops : List ProgOp) (t2 : ℚ)
    (out : BgOutcome) : List Job :=
  let j0 := create_job t0 topic
  let j1 := update_job_status t1 .inProgress none none j0
  j0 :: (progStates j1 ops ++ [applyOutcome t2 out (ops.foldl applyProg j1)])

/-- Order of job statuses along the lifecycle. -/
def statusRank : JobStatus → Nat
  | .pending => 0
  | .inProgress => 1
  | .completed => 2
  | .failed => 2

/-- A terminal status. -/
def terminalStatus (s : JobStatus) : Prop := s = .completed ∨ s = .failed

/-!
Decomposition validation.  The repository's only decomposition
validation lives in `generate_subtopics` (`main.py` lines 116-172); the
`agents`-package revision delegates decomposition to the language model
without validating.  The regex/JSON extraction stages are represented by
their output, a JSON value.
-/

/-- A JSON value, the result of `json.loads`. -/
inductive JVal
  | str (s : String)
  | num (n : Int)
  | boolean (b : Bool)
  | null
  | arr (xs : List JVal)

/-- Embedding of the validation chain of `generate_subtopics`
(`main.py` lines 155-172): in order, the value must be a list, its
length must lie in `[2, 5]`, and every element must be a string.  Every
error message ends with the offending raw response. -/
def validate_subtopics (responseText : String) : JVal → Except String (List String)
  | .arr xs =>
    if ¬(2 ≤ xs.length ∧ xs.length ≤ 5) then
      .error ("AI generated " ++ toString xs.length ++
        " subtopics, expected 2-5.\nFull response: " ++ responseText)
    else if xs.all (fun v => match v with | .str _ => true | _ => false) then
      .ok (xs.filterMap (fun v => match v with | .str s => some s | _ => none))
    else
      .error ("AI response contains non-string items.\nFull response: " ++ responseText)
  | _ =>
    .error ("AI response was not a list.\nFull response: " ++ responseText)

/-- Embedding of steps 1-2 of `conduct_research` (`main.py` lines
331-351): `generate_subtopics` runs first, and research tasks are
created only from its returned list — a validation error therefore
produces no task at all. -/
def conduct_research_decomp (responseText : String) (decomp : JVal)
    (runTask : Nat → String → String) : Except String (List (String × String)) :=
  match validate_subtopics responseText decomp with
  | .error e => .error e
  | .ok subtopics => .ok (subtopics.mapIdx (fun i s => (s, runTask i s)))

/-!
Concurrent fan-out/fan-in (`agent_manager.py` lines 285-366).
`asyncio.gather(*tasks, return_exceptions=True)` waits for every task
and yields one outcome per task, in dispatch order; the loop below it
converts exceptions to error strings in place.
-/

/-- What one gathered task produced: its returned report string, or the
exception `return_exceptions=True` put in its slot. -/
inductive TaskOutcome
  | ok (report : String)
  | exn (msg : String)
  deriving Repr, DecidableEq

/-- Embedding of the body of `research_single_async`: an agent failure
is caught inside the task and converted to an error report; it never
escapes to the other tasks. -/
def researchSingle (agent : String → Except String String) (query : String) : String :=
  match agent query with
  | .ok r => r
  | .error e => "Research failed for '" ++ query ++ "': " ++ e

/-- The exception-to-string conversion applied to one gathered slot. -/
def processResult (query : String) : TaskOutcome → String
  | .ok s => s
  | .exn e => "Research failed for '" ++ query ++ "': " ++ e

/-- Embedding of the fan-in: `processed_results` pairs each query with
its own slot of the gathered outcome list, in input order. -/
def processedResults (queries : List String) (outcomes : List TaskOutcome) : List String :=
  List.zipWith processResult queries outcomes

/-- The expected content of one fan-in slot: present exactly when both
the query and the gathered outcome at that index exist, and then a
function of those two alone. -/
def expectSlot (q? : Option String) (o? : Option TaskOutcome) : Option String :=
  match q?, o? with
  | some q, some o => some (processResult q o)
  | _, _ => none

/-- Embedding of `wait_for_research_report` (`server.py` lines 454-505):
the requested duration is clamped to `[5, 120]`, the clamped value is
slept and reported.  The first component is the duration actually
passed to `asyncio.sleep`, the second the returned message. -/
def wait_for_research_report (seconds : Int) : Int × String :=
  let waitSeconds := max 5 (min seconds 120)
  (waitSeconds,
    "⏳ Wait Complete!\n\nWaited " ++ toString waitSeconds ++
    " seconds as requested.\n\nNext step: Call get_research_report with your job id " ++
    "to check the current status of your research job.")

/-!
Helper lemmas.
-/

theorem zipWith_get_opt {α β γ : Type} (f : α → β → γ) :
    ∀ (l1 : List α) (l2 : List β) (i : Nat),
      (List.zipWith f l1 l2).get? i =
        match l1.get? i, l2.get? i with
        | some a, some b => some (f a b)
        | _, _ => none
  | [], _, _ => by simp
  | _ :: _, [], _ => by simp
  | _ :: _, _ :: _, 0 => by simp
  | _ :: t1, _ :: t2, i + 1 => by
    simpa using zipWith_get_opt f t1 t2 i

theorem update_job_status_statusEq (now : ℚ) (st : JobStatus)
    (result? error? : Option String) (j : Job) :
    (update_job_status now st result? error? j).status = st := by
  cases result? <;> cases error? <;>
    simp only [update_job_status] <;> split_ifs <;> rfl

theorem update_job_status_progressEq (now : ℚ) (st : JobStatus)
    (result? error? : Option String) (j : Job) :
    (update_job_status now st result? error? j).progress = j.progress := by
  cases result? <;> cases error? <;>
    simp only [update_job_status] <;> split_ifs <;> rfl

theorem update_job_status_startedEq (now : ℚ) (st : JobStatus)
    (result? error? : Option String) (j : Job) (h : j.startedAt ≠ none) :
    (update_job_status now st result? error? j).startedAt = j.startedAt := by
  cases result? <;> cases error? <;>
    simp only [update_job_status] <;> split_ifs with h1 <;>
    first
      | rfl
      | exact absurd h1.2 h

theorem applyProg_statusEq (j : Job) (op : ProgOp) :
    (applyProg j op).status = j.status := rfl

theorem applyProg_startedEq (j : Job) (op : ProgOp) :
    (applyProg j op).startedAt = j.startedAt := rfl

theorem applyProg_estimatedEq (j : Job) (op : ProgOp) (h : j.startedAt = some none) :
    (applyProg j op).progress.estimatedRemaining = j.progress.estimatedRemaining := by
  unfold applyProg update_job_progress
  rw [h]
  cases hc : op.current with
  | none => dsimp only; split_ifs <;> rfl
  | some s => dsimp only; split_ifs <;> rfl

theorem foldl_applyProg_statusEq (ops : List ProgOp) (j : Job) :
    (ops.foldl applyProg j).status = j.status := by
  induction ops generalizing j with
  | nil => rfl
  | cons op ops ih => simpa [List.foldl_cons, applyProg_statusEq] using ih (applyProg j op)

theorem progStates_mem_status (ops : List ProgOp) (j : Job)
    (h : j.status = .inProgress) :
    ∀ s ∈ progStates j ops, s.status = .inProgress := by
  induction ops generalizing j with
  | nil =>
    intro s hs
    simp only [progStates, List.mem_singleton] at hs
    exact hs ▸ h
  | cons op ops ih =>
    intro s hs
    simp only [progStates, List.mem_cons] at hs
    rcases hs with rfl | hs
    · exact h
    · exact ih (applyProg j op) ((applyProg_statusEq j op).trans h) s hs

theorem applyOutcome_statusRank (t2 : ℚ) (out : BgOutcome) (j : Job) :
    statusRank (applyOutcome t2 out j).status = 2 := by
  cases out <;> simp [applyOutcome, update_job_status_statusEq, statusRank]

/-!
Claim theorems.
-/

/-- C10: `wait_for_research_report` clamps its argument to `[5, 120]`
before sleeping; for every integer input, including zero and negative
values, the slept duration is `max 5 (min seconds 120)` and the returned
message reports that clamped value, not the requested one. -/
theorem wait_for_research_report_clamps (seconds : Int) :
    (wait_for_research_report seconds).1 = max 5 (min seconds 120) ∧
    (wait_for_research_report seconds).2 =
      "⏳ Wait Complete!\n\nWaited " ++ toString (max 5 (min seconds 120)) ++
      " seconds as requested.\n\nNext step: Call get_research_report with your job id " ++
      "to check the current status of your research job." :=
  ⟨rfl, rfl⟩

/-- C9: the fan-in step yields exactly one entry per dispatched
sub-query, keyed by the sub-query's input index: the result list has the
queries' length, its `i`-th slot is a function of the `i`-th query and
the `i`-th gathered outcome alone (an exception in slot `i` becomes an
error entry at position `i`), and changing another task's outcome leaves
slot `i` unchanged. -/
theorem fan_in_by_input_index (queries : List String)
    (outcomes outcomes' : List TaskOutcome) (i : Nat)
    (hlen : outcomes.length = queries.length)
    (hi : outcomes'.get? i = outcomes.get? i) :
    (processedResults queries outcomes).length = queries.length ∧
    (processedResults queries outcomes).get? i =
      expectSlot (queries.get? i) (outcomes.get? i) ∧
    (processedResults queries outcomes').get? i =
      (processedResults queries outcomes).get? i := by
  refine ⟨?_, ?_, ?_⟩
  · simp [processedResults, hlen]
  · unfold processedResults
    rw [zipWith_get_opt]
    cases queries.get? i <;> cases outcomes.get? i <;> rfl
  · unfold processedResults
    rw [zipWith_get_opt, zipWith_get_opt, hi]

/-- Witness for C9 at a concrete fan-out of three sub-queries whose
middle task raised. -/
theorem fan_in_by_input_index_witness :
    (([TaskOutcome.ok "r0", .exn "boom", .ok "r2"] : List TaskOutcome).length =
        (["q0", "q1", "q2"] : List String).length ∧
      ([TaskOutcome.ok "changed", .exn "boom", .ok "r2"] : List TaskOutcome).get? 1 =
        ([TaskOutcome.ok "r0", .exn "boom", .ok "r2"] : List TaskOutcome).get? 1) ∧
    ((processedResults ["q0", "q1", "q2"] [.ok "r0", .exn "boom", .ok "r2"]).length = 3 ∧
      (processedResults ["q0", "q1", "q2"] [.ok "r0", .exn "boom", .ok "r2"]).get? 1 =
        expectSlot ((["q0", "q1", "q2"] : List String).get? 1)
          (([TaskOutcome.ok "r0", .exn "boom", .ok "r2"] : List TaskOutcome).get? 1) ∧
      (processedResults ["q0", "q1", "q2"] [.ok "changed", .exn "boom", .ok "r2"]).get? 1 =
        (processedResults ["q0", "q1", "q2"] [.ok "r0", .exn "boom", .ok "r2"]).get? 1) :=
  ⟨⟨by decide, by decide⟩,
    fan_in_by_input_index ["q0", "q1", "q2"] [.ok "r0", .exn "boom", .ok "r2"]
      [.ok "changed", .exn "boom", .ok "r2"] 1 (by decide) (by decide)⟩

/-- C3 counterexample: the decomposition validation accepts a list
containing an empty string — `["a", ""]` is not a list of 2 to 5
non-empty strings, yet no error is raised and research tasks are
dispatched for both elements, refuting the claim as stated. -/
theorem validation_accepts_empty_subtopic :
    conduct_research_decomp "raw response" (.arr [.str "a", .str ""])
      (fun _ s => "report for " ++ s) =
    .ok [("a", "report for a"), ("", "report for ")] := by
  rfl

/-- C3 amended: when the decomposition step yields anything other than a
list of 2 to 5 strings (emptiness of the elements is not checked), the
workflow raises a validation error whose message ends with the offending
raw response, before any research task is dispatched (an error result
carries no dispatched task by construction). -/
theorem decomposition_validated_before_dispatch (responseText : String) (v : JVal)
    (runTask : Nat → String → String)
    (h : ¬ ∃ xs, v = .arr xs ∧ 2 ≤ xs.length ∧ xs.length ≤ 5 ∧
          ∀ x ∈ xs, ∃ s, x = .str s) :
    ∃ msg pre, conduct_research_decomp responseText v runTask = .error msg ∧
      msg = pre ++ responseText := by
  cases v with
  | arr xs =>
    by_cases hlen : 2 ≤ xs.length ∧ xs.length ≤ 5
    · have hstr : ¬ xs.all (fun v => match v with | .str _ => true | _ => false) := by
        intro hall
        refine h ⟨xs, rfl, hlen.1, hlen.2, ?_⟩
        intro x hx
        have := (List.all_eq_true.mp hall) x hx
        cases x <;> simp_all
      refine ⟨_, "AI response contains non-string items.\nFull response: ", ?_, rfl⟩
      simp [conduct_research_decomp, validate_subtopics, hlen, hstr]
    · refine ⟨_, "AI generated " ++ toString xs.length ++
        " subtopics, expected 2-5.\nFull response: ", ?_, rfl⟩
      simp [conduct_research_decomp, validate_subtopics, hlen]
  | str s => exact ⟨_, "AI response was not a list.\nFull response: ", rfl, rfl⟩
  | num n => exact ⟨_, "AI response was not a list.\nFull response: ", rfl, rfl⟩
  | boolean b => exact ⟨_, "AI response was not a list.\nFull response: ", rfl, rfl⟩
  | null => exact ⟨_, "AI response was not a list.\nFull response: ", rfl, rfl⟩

/-- Witness for the amended C3 at the spec's scenario: a decomposition
of 6 elements is rejected, naming the raw response, before any dispatch. -/
theorem decomposition_validated_before_dispatch_witness :
    ∃ msg pre,
      conduct_research_decomp "six items"
        (.arr [.str "a", .str "b", .str "c", .str "d", .str "e", .str "f"])
        (fun _ s => s) = .error msg ∧
      msg = pre ++ "six items" :=
  decomposition_validated_before_dispatch "six items"
    (.arr [.str "a", .str "b", .str "c", .str "d", .str "e", .str "f"]) (fun _ s => s)
    (by
      rintro ⟨xs, hxs, -, hlen, -⟩
      cases hxs
      simp at hlen)

/-- C1: the code never stores an estimated-remaining value.  At the
failing input — a job created, moved to `in_progress` by the background
unit, then updated with `total = 4 > 0`, `completed = 1 > 0` — the
stored estimate is still `None`, because `create_job` pre-inserts the
`started_at` key with value `None`, so the `"started_at" not in job`
guard in `update_job_status` never fires and `started_at` never becomes
a timestamp.  The second conjunct generalizes this along every
background execution. -/
theorem estimated_remaining_never_stored :
    ((update_job_status 10 .inProgress none none (create_job 0 "topic")).startedAt
        = some none ∧
      (update_job_status 10 .inProgress none none (create_job 0 "topic")).status
        = .inProgress ∧
      (update_job_progress 70 4 1 (some "sub")
          (update_job_status 10 .inProgress none none
            (create_job 0 "topic"))).progress.estimatedRemaining = none) ∧
    (∀ topic t0 t1 t2 ops out, ∀ j ∈ bgStates topic t0 t1 ops t2 out,
        j.progress.estimatedRemaining = none) := by
  constructor
  · refine ⟨by decide, by decide, by decide⟩
  · intro topic t0 t1 t2 ops out j hj
    have hinv : ∀ (k : Job), k.startedAt = some none →
        k.progress.estimatedRemaining = none →
        ∀ s ∈ progStates k ops, s.progress.estimatedRemaining = none := by
      clear hj
      induction ops with
      | nil =>
        intro k _ hest s hs
        simp only [progStates, List.mem_singleton] at hs
        exact hs ▸ hest
      | cons op ops ih =>
        intro k hst hest s hs
        simp only [progStates, List.mem_cons] at hs
        rcases hs with rfl | hs
        · exact hest
        · exact ih (applyProg k op) ((applyProg_startedEq k op).trans hst)
            ((applyProg_estimatedEq k op hst).trans hest) s hs
    have hfold : ∀ (ops' : List ProgOp) (k : Job), k.startedAt = some none →
        k.progress.estimatedRemaining = none →
        (ops'.foldl applyProg k).startedAt = some none ∧
          (ops'.foldl applyProg k).progress.estimatedRemaining = none := by
      intro ops'
      induction ops' with
      | nil => intro k h1 h2; exact ⟨h1, h2⟩
      | cons op ops' ih =>
        intro k h1 h2
        exact ih (applyProg k op) ((applyProg_startedEq k op).trans h1)
          ((applyProg_estimatedEq k op h1).trans h2)
    have hj1started : (update_job_status t1 .inProgress none none
        (create_job t0 topic)).startedAt = some none := by
      rw [update_job_status_startedEq _ _ _ _ _ (by simp [create_job])]
      rfl
    have hj1est : (update_job_status t1 .inProgress none none
        (create_job t0 topic)).progress.estimatedRemaining = none := by
      rw [update_job_status_progressEq]
      rfl
    simp only [bgStates, List.mem_cons, List.mem_append, List.mem_singleton] at hj
    rcases hj with rfl | hj | rfl | h0
    · rfl
    · exact hinv _ hj1started hj1est j hj
    · have := hfold ops _ hj1started hj1est
      cases out with
      | success r => simpa [applyOutcome, update_job_status_progressEq] using this.2
      | failure e => simpa [applyOutcome, update_job_status_progressEq] using this.2
    · exact absurd h0 (List.not_mem_nil j)

theorem progStates_pairwise (ops : List ProgOp) (j : Job)
    (h : ∀ s ∈ progStates j ops, s.status = .inProgress) :
    (progStates j ops).Pairwise
      (fun a b => statusRank a.status ≤ statusRank b.status ∧
        (terminalStatus a.status → b = a)) := by
  induction ops generalizing j with
  | nil => simp [progStates]
  | cons op ops ih =>
    rw [progStates, List.pairwise_cons]
    refine ⟨?_, ih (applyProg j op)
      (fun s hs => h s (by rw [progStates]; exact List.mem_cons_of_mem _ hs))⟩
    intro b hb
    have hbst := h b (by rw [progStates]; exact List.mem_cons_of_mem _ hb)
    have hjst := h j (by rw [progStates]; exact List.mem_cons_self _ _)
    refine ⟨by rw [hbst, hjst], fun hterm => ?_⟩
    rw [hjst] at hterm
    rcases hterm with h' | h' <;> cases h'

/-- C4: along every background execution of a job, the status only moves
forward — each later state's status rank is at least each earlier one's,
so `pending → in_progress → {completed, failed}` never regresses — and
once a state is terminal every later state is identical to it, so
repeated `get_job` reads return identical payloads. -/
theorem job_lifecycle_forward (topic : String) (t0 t1 : ℚ) (ops : List ProgOp)
    (t2 : ℚ) (out : BgOutcome) :
    (bgStates topic t0 t1 ops t2 out).Pairwise
      (fun a b => statusRank a.status ≤ statusRank b.status ∧
        (terminalStatus a.status → b = a)) := by
  have hmid : ∀ s ∈ progStates (update_job_status t1 .inProgress none none
      (create_job t0 topic)) ops, s.status = .inProgress :=
    progStates_mem_status ops _ (update_job_status_statusEq _ _ _ _ _)
  have hnotterm : ∀ (st : JobStatus), st = .pending ∨ st = .inProgress →
      ¬ terminalStatus st := by
    rintro st (rfl | rfl) (h | h) <;> cases h
  simp only [bgStates]
  rw [List.pairwise_cons]
  constructor
  · intro b _
    refine ⟨Nat.zero_le _, fun hterm => ?_⟩
    exact absurd hterm (hnotterm _ (Or.inl rfl))
  · rw [List.pairwise_append]
    refine ⟨?_, ?_, ?_⟩
    · exact progStates_pairwise ops _ hmid
    · simp
    · intro a ha b hb
      rw [List.mem_singleton] at hb
      subst hb
      have hast := hmid a ha
      refine ⟨?_, fun hterm => ?_⟩
      · rw [hast, applyOutcome_statusRank]
        decide
      · rw [hast] at hterm
        rcases hterm with h | h <;> cases h

/-- C8: `get_source_statistics` always returns
`cited + additional = total`, a citation rate in `[0, 1]` equal to
`cited / total` when `total > 0` and to `0` when `total = 0`. -/
theorem source_statistics_consistent (tracked : Finset String) (d : Doc) :
    (get_source_statistics tracked d).citedSources +
        (get_source_statistics tracked d).additionalSources =
      (get_source_statistics tracked d).totalSources ∧
    0 ≤ (get_source_statistics tracked d).citationRate ∧
    (get_source_statistics tracked d).citationRate ≤ 1 ∧
    ((get_source_statistics tracked d).totalSources > 0 →
      (get_source_statistics tracked d).citationRate =
        ((get_source_statistics tracked d).citedSources : ℚ) /
          ((get_source_statistics tracked d).totalSources : ℚ)) ∧
    ((get_source_statistics tracked d).totalSources = 0 →
      (get_source_statistics tracked d).citationRate = 0) := by
  have hle : (get_additional_sources tracked d).length ≤
      (get_all_sources tracked).length :=
    List.length_filter_le _ _
  simp only [get_source_statistics, gt_iff_lt]
  refine ⟨by ring, ?_, ?_, ?_, ?_⟩
  · split_ifs with hne
    · apply div_nonneg
      · have hc : ((get_additional_sources tracked d).length : ℚ) ≤
            ((get_all_sources tracked).length : ℚ) := by exact_mod_cast hle
        push_cast
        linarith
      · exact Nat.cast_nonneg _
    · exact le_refl 0
  · split_ifs with hne
    · have hpos : (0 : ℚ) < ((get_all_sources tracked).length : ℚ) := by
        have : get_all_sources tracked ≠ [] := hne
        have hlen : 0 < (get_all_sources tracked).length := List.length_pos.mpr this
        exact_mod_cast hlen
      rw [div_le_one hpos]
      push_cast
      linarith [Nat.cast_nonneg (α := ℚ) (get_additional_sources tracked d).length]
    · exact zero_le_one
  · intro hpos
    have hne : get_all_sources tracked ≠ [] := by
      intro hnil
      rw [hnil] at hpos
      simp at hpos
    simp [hne]
  · intro hzero
    have hnil : get_all_sources tracked = [] := by
      have : (get_all_sources tracked).length = 0 := by exact_mod_cast hzero
      exact List.length_eq_zero.mp this
    simp [hnil]

theorem lookup_eq_none_forall {β : Type} (k : String) (m : List (String × β))
    (h : ∀ q ∈ m, q.1 ≠ k) : m.lookup k = none := by
  induction m with
  | nil => rfl
  | cons p m ih =>
    have hne : (k == p.1) = false := by
      simp only [beq_eq_false_iff_ne, ne_eq]
      exact fun he => h p (List.mem_cons_self _ _) he.symm
    simp only [List.lookup, hne]
    exact ih fun q hq => h q (List.mem_cons_of_mem _ hq)

theorem simulSub_nil (t : Tok) : simulSub [] t = t := by
  cases t <;> rfl

theorem applyMapping_eq_map_simulSub (m : List (String × String)) (hnc : NoChain m)
    (body : List Tok) : applyMapping m body = body.map (simulSub m) := by
  induction m generalizing body with
  | nil => exact (List.map_id'' simulSub_nil body).symm
  | cons p m ih =>
    have hstep : ∀ t, simulSub m (substTok p.1 p.2 t) = simulSub (p :: m) t := by
      intro t
      cases t with
      | txt s => rfl
      | ref l =>
        by_cases hl : l = p.1
        · have h1 : substTok p.1 p.2 (Tok.ref l) = Tok.ref p.2 := by
            simp [substTok, hl]
          have h2 : List.lookup p.2 m = none := lookup_eq_none_forall p.2 m hnc.1
          have hbeq : (l == p.1) = true := by simp [hl]
          rw [h1]
          simp [simulSub, lookupLabel, h2, List.lookup, hbeq]
        · have h1 : substTok p.1 p.2 (Tok.ref l) = Tok.ref l := by
            simp [substTok, hl]
          have hbeq : (l == p.1) = false := by simp [hl]
          rw [h1]
          simp [simulSub, lookupLabel, List.lookup, hbeq]
    calc applyMapping (p :: m) body
        = applyMapping m (body.map (substTok p.1 p.2)) := rfl
      _ = (body.map (substTok p.1 p.2)).map (simulSub m) := ih hnc.2 _
      _ = body.map (fun t => simulSub m (substTok p.1 p.2 t)) := by
          rw [List.map_map]; rfl
      _ = body.map (simulSub (p :: m)) := List.map_congr_left (fun t _ => hstep t)

theorem addOldNum_keys (k o : String) (m : List (String × UrlInfo)) :
    (addOldNum k o m).map Prod.fst = m.map Prod.fst := by
  induction m with
  | nil => rfl
  | cons p m ih =>
    by_cases hp : p.1 = k <;> simp [addOldNum, hp, ih]

theorem addOldNum_newNums (k o : String) (m : List (String × UrlInfo)) :
    (addOldNum k o m).map (fun p => p.2.newNum) = m.map (fun p => p.2.newNum) := by
  induction m with
  | nil => rfl
  | cons p m ih =>
    by_cases hp : p.1 = k <;> simp [addOldNum, hp, ih]

theorem addOldNum_urls (k o : String) (m : List (String × UrlInfo)) :
    (addOldNum k o m).map (fun p => normalize_url p.2.originalUrl) =
      m.map (fun p => normalize_url p.2.originalUrl) := by
  induction m with
  | nil => rfl
  | cons p m ih =>
    by_cases hp : p.1 = k <;> simp [addOldNum, hp, ih]

theorem addOldNum_length (k o : String) (m : List (String × UrlInfo)) :
    (addOldNum k o m).length = m.length := by
  induction m with
  | nil => rfl
  | cons p m ih =>
    by_cases hp : p.1 = k <;> simp [addOldNum, hp, ih]

theorem mem_keys_of_lookup_none {β : Type} (k : String) (m : List (String × β))
    (h : m.lookup k = none) : k ∉ m.map Prod.fst := by
  induction m with
  | nil => simp
  | cons p m ih =>
    simp only [List.lookup] at h
    by_cases hk : (k == p.1) = true
    · rw [hk] at h
      cases h
    · rw [Bool.not_eq_true] at hk
      rw [hk] at h
      simp only [List.map_cons, List.mem_cons]
      rintro (rfl | hmem)
      · simp at hk
      · exact ih h hmem

theorem buildUrlMapGo_spec (cs : List Entry) :
    ∀ (acc : List (String × UrlInfo)),
      (acc.map Prod.fst).Nodup →
      acc.map (fun p => normalize_url p.2.originalUrl) = acc.map Prod.fst →
      acc.map (fun p => p.2.newNum) = List.range' 1 acc.length →
      ((buildUrlMapGo cs acc (acc.length + 1)).map Prod.fst).Nodup ∧
      (buildUrlMapGo cs acc (acc.length + 1)).map (fun p => normalize_url p.2.originalUrl) =
        (buildUrlMapGo cs acc (acc.length + 1)).map Prod.fst ∧
      (buildUrlMapGo cs acc (acc.length + 1)).map (fun p => p.2.newNum) =
        List.range' 1 (buildUrlMapGo cs acc (acc.length + 1)).length := by
  induction cs with
  | nil => intro acc h1 h2 h3; exact ⟨h1, h2, h3⟩
  | cons c cs ih =>
    intro acc h1 h2 h3
    by_cases hl : (acc.lookup (normalize_url c.url)).isSome
    · rw [show buildUrlMapGo (c :: cs) acc (acc.length + 1) =
          buildUrlMapGo cs (addOldNum (normalize_url c.url) c.oldNum acc)
            (acc.length + 1) from by simp [buildUrlMapGo, hl]]
      rw [show acc.length = (addOldNum (normalize_url c.url) c.oldNum acc).length from
        (addOldNum_length _ _ _).symm]
      exact ih _ (by rw [addOldNum_keys]; exact h1)
        (by rw [addOldNum_urls, addOldNum_keys]; exact h2)
        (by rw [addOldNum_newNums, addOldNum_length]; exact h3)
    · have hnone : acc.lookup (normalize_url c.url) = none :=
        Option.not_isSome_iff_eq_none.mp hl
      have hnotmem : normalize_url c.url ∉ acc.map Prod.fst :=
        mem_keys_of_lookup_none _ _ hnone
      rw [show buildUrlMapGo (c :: cs) acc (acc.length + 1) =
          buildUrlMapGo cs
            (acc ++ [(normalize_url c.url,
              ⟨acc.length + 1, c.siteName, c.title, c.url, [c.oldNum]⟩)])
            (acc.length + 1 + 1) from by simp [buildUrlMapGo, hl]]
      have hlen : (acc ++ [(normalize_url c.url,
          (⟨acc.length + 1, c.siteName, c.title, c.url, [c.oldNum]⟩ : UrlInfo))]).length =
          acc.length + 1 := by simp
      rw [show acc.length + 1 + 1 = (acc ++ [(normalize_url c.url,
          (⟨acc.length + 1, c.siteName, c.title, c.url, [c.oldNum]⟩ : UrlInfo))]).length + 1 from by
        rw [hlen]]
      refine ih _ ?_ ?_ ?_
      · simp only [List.map_append, List.map_cons, List.map_nil]
        rw [List.nodup_append]
        exact ⟨h1, List.nodup_singleton _, by simpa using hnotmem⟩
      · simp only [List.map_append, List.map_cons, List.map_nil]
        rw [h2]
      · simp only [List.map_append, List.map_cons, List.map_nil, hlen]
        rw [h3, List.range'_concat]
        simp [Nat.add_comm]

theorem buildUrlMap_spec (cs : List Entry) :
    ((buildUrlMap cs).map Prod.fst).Nodup ∧
    (buildUrlMap cs).map (fun p => normalize_url p.2.originalUrl) =
      (buildUrlMap cs).map Prod.fst ∧
    (buildUrlMap cs).map (fun p => p.2.newNum) =
      List.range' 1 (buildUrlMap cs).length :=
  buildUrlMapGo_spec cs [] (by simp) (by simp) (by simp)

theorem extractCitations_rebuild (infos : List (String × UrlInfo)) :
    extractCitations (rebuildLines infos) =
      infos.map (fun p => ⟨toString p.2.newNum, p.2.siteName, p.2.title, p.2.originalUrl⟩) := by
  induction infos with
  | nil => rfl
  | cons p infos ih => simp [extractCitations, rebuildLines] at ih ⊢; exact ih

theorem getCitedUrls_some (b : List Tok) (lines : List SrcLine) :
    getCitedUrls ⟨b, some lines⟩ =
      (extractCitations lines).map (fun e => normalize_url e.url) := rfl

theorem rebuild_urls (infos : List (String × UrlInfo)) :
    (extractCitations (rebuildLines infos)).map (fun e => normalize_url e.url) =
      infos.map (fun p => normalize_url p.2.originalUrl) := by
  induction infos with
  | nil => rfl
  | cons p infos ih => simp only [extractCitations, rebuildLines, List.filterMap_cons,
      List.map_cons] at ih ⊢; rw [ih]

theorem rebuild_labels (infos : List (String × UrlInfo)) :
    (extractCitations (rebuildLines infos)).map (fun e => e.oldNum) =
      infos.map (fun p => toString p.2.newNum) := by
  induction infos with
  | nil => rfl
  | cons p infos ih => simp only [extractCitations, rebuildLines, List.filterMap_cons,
      List.map_cons] at ih ⊢; rw [ih]

theorem map_toString_newNum (infos : List (String × UrlInfo)) :
    infos.map (fun p => toString p.2.newNum) =
      (infos.map (fun p => p.2.newNum)).map (fun n => toString n) := by
  induction infos with
  | nil => rfl
  | cons p infos ih => simp only [List.map_cons]; rw [ih]

theorem dedup_unfold (d : Doc) (lines : List SrcLine)
    (hs : d.sources = some lines) (hc : extractCitations lines ≠ []) :
    deduplicate_citation_urls d =
      ⟨⟨applyMapping (buildMapping (buildUrlMap (extractCitations lines))) d.body,
          some (rebuildLines (buildUrlMap (extractCitations lines)))⟩,
        (extractCitations lines).length - (buildUrlMap (extractCitations lines)).length,
        (buildUrlMap (extractCitations lines)).length⟩ := by
  simp [deduplicate_citation_urls, hs, hc]

/-- C2 counterexample: with sources lines `[2] … https://b.com` and
`[1] … https://a.com` (distinct normalized URLs, first-seen order 2
then 1), the old-to-new mapping is `2 ↦ 1, 1 ↦ 2`; the sequential
`re.sub` loop first turns every `[2]` into `[1]` and then turns all of
those, together with the original `[1]`s, into `[2]` — so the reference
originally labelled `2`, mapped to new label `1`, ends up printed as
`[2]`, and no reference carries label `1` at all, refuting the claim
that a bracketed reference carries label `k` exactly when its original
label was mapped to `k`. -/
theorem dedup_relabel_chain_collision :
    buildMapping (buildUrlMap (extractCitations
      [.entry ⟨"2", "A", "T", "https://b.com"⟩, .entry ⟨"1", "B", "U", "https://a.com"⟩])) =
      [("2", "1"), ("1", "2")] ∧
    (deduplicate_citation_urls
      ⟨[.ref "2", .ref "1"],
        some [.entry ⟨"2", "A", "T", "https://b.com"⟩,
              .entry ⟨"1", "B", "U", "https://a.com"⟩]⟩).updatedText.body =
      [.ref "2", .ref "2"] := by
  constructor <;> rfl

/-- C2 amended: `deduplicate_citation_urls` assigns new labels 1, 2, 3,
… in first-seen order of normalized URL and rebuilds the sources section
with exactly one line per normalized URL; the in-text rewriting applies
the old-to-new replacements one after another, which matches the mapped
labels (a reference carries label `k` exactly when its original label
was mapped to `k`) whenever no replacement's target equals a later
replacement's source — in particular when old labels `[1]`, `[5]`,
`[9]` cite URLs that normalize identically and are first seen in that
order, all three collapse to the one new label `1` at each of the three
original reference positions. -/
theorem dedup_renumber_first_seen (d : Doc) (lines : List SrcLine)
    (hs : d.sources = some lines) (hc : extractCitations lines ≠ [])
    (hnc : NoChain (buildMapping (buildUrlMap (extractCitations lines)))) :
    (deduplicate_citation_urls d).updatedText.body =
      d.body.map (simulSub (buildMapping (buildUrlMap (extractCitations lines)))) ∧
    (deduplicate_citation_urls d).updatedText.sources =
      some (rebuildLines (buildUrlMap (extractCitations lines))) ∧
    (getCitedUrls (deduplicate_citation_urls d).updatedText).Nodup ∧
    (extractCitations (rebuildLines (buildUrlMap (extractCitations lines)))).map
        (fun e => e.oldNum) =
      (List.range' 1 (buildUrlMap (extractCitations lines)).length).map
        (fun n => toString n) := by
  obtain ⟨hkeys, hurls, hnums⟩ := buildUrlMap_spec (extractCitations lines)
  rw [dedup_unfold d lines hs hc]
  refine ⟨applyMapping_eq_map_simulSub _ hnc _, rfl, ?_, ?_⟩
  · rw [getCitedUrls_some, rebuild_urls, hurls]
    exact hkeys
  · rw [rebuild_labels, map_toString_newNum, hnums]

set_option maxHeartbeats 2000000 in
/-- Witness for the amended C2 at the spec's scenario: labels `[1]`,
`[5]`, `[9]` cite three spellings of one URL; they collapse to the one
new label `1`, which then appears at each of the three original
reference positions. -/
theorem dedup_renumber_first_seen_witness :
    (scenarioDoc.sources = some scenarioLines ∧
      extractCitations scenarioLines ≠ [] ∧
      NoChain (buildMapping (buildUrlMap (extractCitations scenarioLines)))) ∧
    ((deduplicate_citation_urls scenarioDoc).updatedText.body =
        scenarioDoc.body.map
          (simulSub (buildMapping (buildUrlMap (extractCitations scenarioLines)))) ∧
      (deduplicate_citation_urls scenarioDoc).updatedText.sources =
        some (rebuildLines (buildUrlMap (extractCitations scenarioLines))) ∧
      (getCitedUrls (deduplicate_citation_urls scenarioDoc).updatedText).Nodup ∧
      (extractCitations (rebuildLines (buildUrlMap
          (extractCitations scenarioLines)))).map (fun e => e.oldNum) =
        (List.range' 1 (buildUrlMap (extractCitations scenarioLines)).length).map
          (fun n => toString n)) ∧
    (deduplicate_citation_urls scenarioDoc).updatedText.body =
      [Tok.ref "1", Tok.txt "text", Tok.ref "1", Tok.ref "1"] :=
  ⟨⟨rfl, by decide, by decide⟩,
    dedup_renumber_first_seen scenarioDoc scenarioLines rfl (by decide) (by decide),
    by decide⟩

theorem dedup_none (d : Doc) (h : d.sources = none) :
    deduplicate_citation_urls d = ⟨d, 0, 0⟩ := by
  simp [deduplicate_citation_urls, h]

theorem dedup_noCitations (d : Doc) (lines : List SrcLine) (hs : d.sources = some lines)
    (hc : extractCitations lines = []) :
    deduplicate_citation_urls d = ⟨d, 0, 0⟩ := by
  simp [deduplicate_citation_urls, hs, hc]

theorem buildUrlMapGo_length (cs : List Entry) :
    ∀ (acc : List (String × UrlInfo)) (k : Nat),
      acc.length ≤ (buildUrlMapGo cs acc k).length := by
  induction cs with
  | nil => intro acc k; exact le_refl _
  | cons c cs ih =>
    intro acc k
    by_cases hl : (acc.lookup (normalize_url c.url)).isSome
    · rw [show buildUrlMapGo (c :: cs) acc k =
          buildUrlMapGo cs (addOldNum (normalize_url c.url) c.oldNum acc) k from by
        simp [buildUrlMapGo, hl]]
      calc acc.length = (addOldNum (normalize_url c.url) c.oldNum acc).length :=
            (addOldNum_length _ _ _).symm
        _ ≤ _ := ih _ _
    · rw [show buildUrlMapGo (c :: cs) acc k =
          buildUrlMapGo cs (acc ++ [(normalize_url c.url,
            ⟨k, c.siteName, c.title, c.url, [c.oldNum]⟩)]) (k + 1) from by
        simp [buildUrlMapGo, hl]]
      calc acc.length ≤ acc.length + 1 := Nat.le_succ _
        _ = (acc ++ [(normalize_url c.url,
            (⟨k, c.siteName, c.title, c.url, [c.oldNum]⟩ : UrlInfo))]).length := by simp
        _ ≤ _ := ih _ _

theorem buildUrlMap_ne_nil (cs : List Entry) (h : cs ≠ []) : buildUrlMap cs ≠ [] := by
  cases cs with
  | nil => exact absurd rfl h
  | cons c cs =>
    have hstep : buildUrlMap (c :: cs) =
        buildUrlMapGo cs [(normalize_url c.url,
          ⟨1, c.siteName, c.title, c.url, [c.oldNum]⟩)] 2 := by
      simp [buildUrlMap, buildUrlMapGo, List.lookup]
    have hlen : 1 ≤ (buildUrlMap (c :: cs)).length := by
      rw [hstep]
      have := buildUrlMapGo_length cs [(normalize_url c.url,
        ⟨1, c.siteName, c.title, c.url, [c.oldNum]⟩)] 2
      simpa using this
    intro hnil
    rw [hnil] at hlen
    simp at hlen

theorem buildUrlMapGo_fresh (cs : List Entry) :
    ∀ (acc : List (String × UrlInfo)),
      (cs.map (fun e => normalize_url e.url)).Nodup →
      (∀ e ∈ cs, normalize_url e.url ∉ acc.map Prod.fst) →
      buildUrlMapGo cs acc (acc.length + 1) = acc ++ buildFresh acc.length cs := by
  induction cs with
  | nil => intro acc _ _; simp [buildUrlMapGo, buildFresh]
  | cons c cs ih =>
    intro acc hnodup hdis
    rw [List.map_cons, List.nodup_cons] at hnodup
    have hnone : acc.lookup (normalize_url c.url) = none := by
      apply lookup_eq_none_forall
      intro q hq hkey
      exact hdis c (List.mem_cons_self _ _) (hkey ▸ List.mem_map_of_mem Prod.fst hq)
    rw [show buildUrlMapGo (c :: cs) acc (acc.length + 1) =
        buildUrlMapGo cs (acc ++ [(normalize_url c.url,
          ⟨acc.length + 1, c.siteName, c.title, c.url, [c.oldNum]⟩)])
          (acc.length + 1 + 1) from by
      simp [buildUrlMapGo, hnone]]
    have hlen : (acc ++ [(normalize_url c.url,
        (⟨acc.length + 1, c.siteName, c.title, c.url, [c.oldNum]⟩ : UrlInfo))]).length =
        acc.length + 1 := by simp
    rw [show acc.length + 1 + 1 = (acc ++ [(normalize_url c.url,
        (⟨acc.length + 1, c.siteName, c.title, c.url, [c.oldNum]⟩ : UrlInfo))]).length + 1 from by
      rw [hlen]]
    rw [ih _ hnodup.2 ?hdis2]
    case hdis2 =>
      intro e he
      simp only [List.map_append, List.map_cons, List.map_nil, List.mem_append,
        List.mem_singleton]
      rintro (hmem | hkey)
      · exact hdis e (List.mem_cons_of_mem _ he) hmem
      · exact hnodup.1 (List.mem_map.mpr ⟨e, he, hkey⟩)
    rw [hlen, buildFresh, List.append_assoc]
    rfl

theorem buildUrlMap_fresh (cs : List Entry)
    (h : (cs.map (fun e => normalize_url e.url)).Nodup) :
    buildUrlMap cs = buildFresh 0 cs := by
  have := buildUrlMapGo_fresh cs [] h (by simp)
  simpa [buildUrlMap] using this

theorem substTok_self (x : String) (t : Tok) : substTok x x t = t := by
  cases t with
  | txt s => rfl
  | ref l =>
    by_cases hl : l = x
    · simp [substTok, hl]
    · simp [substTok, hl]

theorem applyMapping_identity (m : List (String × String)) (h : ∀ q ∈ m, q.1 = q.2) :
    ∀ body, applyMapping m body = body := by
  induction m with
  | nil => intro body; rfl
  | cons p m ih =>
    intro body
    have hp : p.1 = p.2 := h p (List.mem_cons_self _ _)
    calc applyMapping (p :: m) body
        = applyMapping m (body.map (substTok p.1 p.2)) := rfl
      _ = applyMapping m body := by
          rw [show body.map (substTok p.1 p.2) = body from by
            rw [← hp]
            exact List.map_id'' (substTok_self p.1) body]
      _ = body := ih (fun q hq => h q (List.mem_cons_of_mem _ hq)) body

theorem insertAssoc_identity (k v : String) (hk : k = v) (m : List (String × String))
    (h : ∀ q ∈ m, q.1 = q.2) : ∀ q ∈ insertAssoc k v m, q.1 = q.2 := by
  induction m with
  | nil =>
    intro q hq
    simp only [insertAssoc, List.mem_singleton] at hq
    rw [hq]
    exact hk
  | cons p m ih =>
    intro q hq
    by_cases hp : p.1 = k
    · simp only [insertAssoc, if_pos hp, List.mem_cons] at hq
      rcases hq with rfl | hq
      · exact hk
      · exact h q (List.mem_cons_of_mem _ hq)
    · simp only [insertAssoc, if_neg hp, List.mem_cons] at hq
      rcases hq with rfl | hq
      · exact h q (List.mem_cons_self _ _)
      · exact ih (fun r hr => h r (List.mem_cons_of_mem _ hr)) q hq

theorem buildMapping_all_identity (infos : List (String × UrlInfo))
    (h : ∀ p ∈ infos, ∀ o ∈ p.2.oldNums, o = toString p.2.newNum) :
    ∀ q ∈ buildMapping infos, q.1 = q.2 := by
  suffices hgen : ∀ (m : List (String × String)), (∀ q ∈ m, q.1 = q.2) →
      ∀ q ∈ infos.foldl
        (fun m p => p.2.oldNums.foldl
          (fun mm o => insertAssoc o (toString p.2.newNum) mm) m) m, q.1 = q.2 by
    exact hgen [] (by simp)
  induction infos with
  | nil => intro m hm q hq; exact hm q hq
  | cons p infos ih =>
    intro m hm q hq
    refine ih (fun r hr => h r (List.mem_cons_of_mem _ hr)) _ ?_ q hq
    have hInner : ∀ (olds : List String), (∀ o ∈ olds, o = toString p.2.newNum) →
        ∀ (mm : List (String × String)), (∀ r ∈ mm, r.1 = r.2) →
        ∀ r ∈ olds.foldl (fun mm o => insertAssoc o (toString p.2.newNum) mm) mm,
          r.1 = r.2 := by
      intro olds
      induction olds with
      | nil => intro _ mm hmm r hr; exact hmm r hr
      | cons o olds ihInner =>
        intro holds mm hmm r hr
        refine ihInner (fun o' ho' => holds o' (List.mem_cons_of_mem _ ho')) _ ?_ r hr
        exact insertAssoc_identity o (toString p.2.newNum)
          (holds o (List.mem_cons_self _ _)) mm hmm
    exact hInner p.2.oldNums (h p (List.mem_cons_self _ _)) m hm

theorem buildFresh_olds (infos : List (String × UrlInfo)) :
    ∀ (k : Nat),
      infos.map (fun p => p.2.newNum) = List.range' (k + 1) infos.length →
      ∀ q ∈ buildFresh k (infos.map
          (fun p => (⟨toString p.2.newNum, p.2.siteName, p.2.title,
            p.2.originalUrl⟩ : Entry))),
        ∀ o ∈ q.2.oldNums, o = toString q.2.newNum := by
  induction infos with
  | nil => intro k _ q hq; simp [buildFresh] at hq
  | cons p infos ih =>
    intro k hnum q hq
    simp only [List.map_cons, List.length_cons, List.range'_succ] at hnum
    have hhead : p.2.newNum = k + 1 := (List.cons.injEq _ _ _ _).mp hnum |>.1
    have htail := (List.cons.injEq _ _ _ _).mp hnum |>.2
    simp only [List.map_cons, buildFresh, List.mem_cons] at hq
    rcases hq with rfl | hq
    · intro o ho
      simp only [List.mem_singleton] at ho
      rw [ho, hhead]
    · exact ih (k + 1) (by simpa using htail) q hq

theorem buildFresh_rebuild (infos : List (String × UrlInfo)) :
    ∀ (k : Nat),
      infos.map (fun p => p.2.newNum) = List.range' (k + 1) infos.length →
      rebuildLines (buildFresh k (infos.map
        (fun p => (⟨toString p.2.newNum, p.2.siteName, p.2.title,
          p.2.originalUrl⟩ : Entry)))) = rebuildLines infos := by
  induction infos with
  | nil => intro k _; rfl
  | cons p infos ih =>
    intro k hnum
    simp only [List.map_cons, List.length_cons, List.range'_succ] at hnum
    have hhead : p.2.newNum = k + 1 := (List.cons.injEq _ _ _ _).mp hnum |>.1
    have htail := (List.cons.injEq _ _ _ _).mp hnum |>.2
    simp only [List.map_cons, buildFresh, rebuildLines] at ih ⊢
    rw [ih (k + 1) (by simpa using htail)]
    simp [hhead]

theorem buildFresh_length (es : List Entry) : ∀ k, (buildFresh k es).length = es.length := by
  induction es with
  | nil => intro k; rfl
  | cons e es ih => intro k; simp [buildFresh, ih]

/-- C7: `deduplicate_citation_urls` is idempotent on its own output —
running it a second time on the `updated_text` it produced leaves that
text unchanged and reports zero further deduplications. -/
theorem dedup_idempotent (d : Doc) :
    (deduplicate_citation_urls (deduplicate_citation_urls d).updatedText).updatedText =
      (deduplicate_citation_urls d).updatedText ∧
    (deduplicate_citation_urls
      (deduplicate_citation_urls d).updatedText).deduplicatedCount = 0 := by
  rcases hsrc : d.sources with _ | lines
  · have h1 : deduplicate_citation_urls d = ⟨d, 0, 0⟩ := dedup_none d hsrc
    rw [h1]
    show (deduplicate_citation_urls d).updatedText = d ∧
      (deduplicate_citation_urls d).deduplicatedCount = 0
    rw [h1]
    exact ⟨rfl, rfl⟩
  · by_cases hc : extractCitations lines = []
    · have h1 : deduplicate_citation_urls d = ⟨d, 0, 0⟩ := dedup_noCitations d lines hsrc hc
      rw [h1]
      show (deduplicate_citation_urls d).updatedText = d ∧
        (deduplicate_citation_urls d).deduplicatedCount = 0
      rw [h1]
      exact ⟨rfl, rfl⟩
    · obtain ⟨hkeys, hurls, hnums⟩ := buildUrlMap_spec (extractCitations lines)
      have h1 := dedup_unfold d lines hsrc hc
      rw [h1]
      have hne : buildUrlMap (extractCitations lines) ≠ [] :=
        buildUrlMap_ne_nil _ hc
      have hc2 : extractCitations (rebuildLines (buildUrlMap (extractCitations lines))) ≠ [] := by
        rw [extractCitations_rebuild]
        simpa [List.map_eq_nil_iff] using hne
      have h2 := dedup_unfold
        ⟨applyMapping (buildMapping (buildUrlMap (extractCitations lines))) d.body,
          some (rebuildLines (buildUrlMap (extractCitations lines)))⟩
        (rebuildLines (buildUrlMap (extractCitations lines))) rfl hc2
      rw [show (⟨⟨applyMapping (buildMapping (buildUrlMap (extractCitations lines))) d.body,
            some (rebuildLines (buildUrlMap (extractCitations lines)))⟩,
          (extractCitations lines).length - (buildUrlMap (extractCitations lines)).length,
          (buildUrlMap (extractCitations lines)).length⟩ :
          DeduplicationResult).updatedText =
        ⟨applyMapping (buildMapping (buildUrlMap (extractCitations lines))) d.body,
          some (rebuildLines (buildUrlMap (extractCitations lines)))⟩ from rfl]
      rw [h2]
      have hnodup2 : ((extractCitations (rebuildLines
          (buildUrlMap (extractCitations lines)))).map
          (fun e => normalize_url e.url)).Nodup := by
        rw [rebuild_urls, hurls]
        exact hkeys
      have hfresh : buildUrlMap (extractCitations (rebuildLines
          (buildUrlMap (extractCitations lines)))) =
          buildFresh 0 ((buildUrlMap (extractCitations lines)).map
            (fun p => (⟨toString p.2.newNum, p.2.siteName, p.2.title,
              p.2.originalUrl⟩ : Entry))) := by
        rw [buildUrlMap_fresh _ hnodup2, extractCitations_rebuild]
      have hnums0 : (buildUrlMap (extractCitations lines)).map (fun p => p.2.newNum) =
          List.range' (0 + 1) (buildUrlMap (extractCitations lines)).length := by
        simpa using hnums
      have holds := buildFresh_olds (buildUrlMap (extractCitations lines)) 0 hnums0
      have hid : ∀ q ∈ buildMapping (buildUrlMap (extractCitations (rebuildLines
          (buildUrlMap (extractCitations lines))))), q.1 = q.2 := by
        rw [hfresh]
        exact buildMapping_all_identity _ holds
      constructor
      · have hbody := applyMapping_identity _ hid
          (applyMapping (buildMapping (buildUrlMap (extractCitations lines))) d.body)
        have hsources : rebuildLines (buildUrlMap (extractCitations (rebuildLines
            (buildUrlMap (extractCitations lines))))) =
            rebuildLines (buildUrlMap (extractCitations lines)) := by
          rw [hfresh]
          exact buildFresh_rebuild _ 0 hnums0
        show (⟨applyMapping _ _, some _⟩ : Doc) = _
        rw [hbody, hsources]
      · show (extractCitations (rebuildLines (buildUrlMap (extractCitations lines)))).length -
          (buildUrlMap (extractCitations (rebuildLines
            (buildUrlMap (extractCitations lines))))).length = 0
        rw [hfresh, buildFresh_length, extractCitations_rebuild]
        simp

/-!
Character-level facts about `lowerChar` and the character classes.
-/

theorem charToNatInj (c d : Char) (h : c.toNat = d.toNat) : c = d :=
  Char.eq_of_val_eq (UInt32.ext h)

theorem lowerChar_spec (c : Char) :
    (lowerChar c = c ∧ ¬(65 ≤ c.toNat ∧ c.toNat ≤ 90)) ∨
    (65 ≤ c.toNat ∧ c.toNat ≤ 90 ∧ (lowerChar c).toNat = c.toNat + 32) := by
  unfold lowerChar
  split_ifs with h
  · right
    refine ⟨h.1, h.2, ?_⟩
    unfold Char.ofNat
    rw [dif_pos (Or.inl (by omega))]
    rfl
  · left
    exact ⟨rfl, h⟩

theorem lowerChar_eq_iff_nonletter (d : Char)
    (hd : d.toNat < 65 ∨ (90 < d.toNat ∧ d.toNat < 97) ∨ 122 < d.toNat) (c : Char) :
    lowerChar c = d ↔ c = d := by
  rcases lowerChar_spec c with ⟨hfix, _⟩ | ⟨h1, h2, h3⟩
  · rw [hfix]
  · constructor
    · intro h
      have := congrArg Char.toNat h
      omega
    · intro h
      subst h
      omega

theorem lowerChar_beq_nonletter (d : Char)
    (hd : d.toNat < 65 ∨ (90 < d.toNat ∧ d.toNat < 97) ∨ 122 < d.toNat) (c : Char) :
    (lowerChar c == d) = (c == d) := by
  rcases hbc : (c == d) with _ | _
  · rw [beq_eq_false_iff_ne] at hbc ⊢
    exact fun h => hbc ((lowerChar_eq_iff_nonletter d hd c).mp h)
  · rw [beq_iff_eq] at hbc ⊢
    exact (lowerChar_eq_iff_nonletter d hd c).mpr hbc

theorem lowerChar_idem (c : Char) : lowerChar (lowerChar c) = lowerChar c := by
  rcases lowerChar_spec c with ⟨hfix, _⟩ | ⟨h1, h2, h3⟩
  · rw [hfix, hfix]
  · rcases lowerChar_spec (lowerChar c) with ⟨hfix2, _⟩ | ⟨g1, g2, _⟩
    · exact hfix2
    · omega

theorem isSpace_lowerChar (c : Char) : isSpace (lowerChar c) = isSpace c := by
  rcases lowerChar_spec c with ⟨hfix, _⟩ | ⟨h1, h2, h3⟩
  · rw [hfix]
  · unfold isSpace
    rw [decide_eq_decide]
    omega

theorem isAsciiAlpha_lowerChar (c : Char) : isAsciiAlpha (lowerChar c) = isAsciiAlpha c := by
  rcases lowerChar_spec c with ⟨hfix, _⟩ | ⟨h1, h2, h3⟩
  · rw [hfix]
  · unfold isAsciiAlpha
    rw [decide_eq_decide]
    omega

theorem isAsciiDigit_lowerChar (c : Char) : isAsciiDigit (lowerChar c) = isAsciiDigit c := by
  rcases lowerChar_spec c with ⟨hfix, _⟩ | ⟨h1, h2, h3⟩
  · rw [hfix]
  · unfold isAsciiDigit
    rw [decide_eq_decide]
    omega

theorem isSchemeChar_lowerChar (c : Char) : isSchemeChar (lowerChar c) = isSchemeChar c := by
  unfold isSchemeChar
  rw [isAsciiAlpha_lowerChar, isAsciiDigit_lowerChar,
    lowerChar_beq_nonletter '+' (by decide), lowerChar_beq_nonletter '-' (by decide),
    lowerChar_beq_nonletter '.' (by decide)]

theorem lowerChar_colon (c : Char) : lowerChar c = ':' ↔ c = ':' :=
  lowerChar_eq_iff_nonletter ':' (by decide) c

theorem lowerChar_slash (c : Char) : lowerChar c = '/' ↔ c = '/' :=
  lowerChar_eq_iff_nonletter '/' (by decide) c

theorem lowerChar_qmark (c : Char) : lowerChar c = '?' ↔ c = '?' :=
  lowerChar_eq_iff_nonletter '?' (by decide) c

theorem lowerChar_hash (c : Char) : lowerChar c = '#' ↔ c = '#' :=
  lowerChar_eq_iff_nonletter '#' (by decide) c

theorem lowerChar_semi (c : Char) : lowerChar c = ';' ↔ c = ';' :=
  lowerChar_eq_iff_nonletter ';' (by decide) c

theorem lowerChar_lbr (c : Char) : lowerChar c = '[' ↔ c = '[' :=
  lowerChar_eq_iff_nonletter '[' (by decide) c

theorem lowerChar_rbr (c : Char) : lowerChar c = ']' ↔ c = ']' :=
  lowerChar_eq_iff_nonletter ']' (by decide) c

theorem isNetlocEnd_lowerChar (c : Char) : isNetlocEnd (lowerChar c) = isNetlocEnd c := by
  unfold isNetlocEnd
  rw [lowerChar_beq_nonletter '/' (by decide), lowerChar_beq_nonletter '?' (by decide),
    lowerChar_beq_nonletter '#' (by decide)]

theorem isSchemeChar_ne_reserved (c : Char) (h : isSchemeChar c = true) :
    c ≠ ':' ∧ c ≠ '/' ∧ c ≠ '?' ∧ c ≠ '#' ∧ isSpace c = false := by
  refine ⟨fun hc => absurd (hc ▸ h) (by decide), fun hc => absurd (hc ▸ h) (by decide),
    fun hc => absurd (hc ▸ h) (by decide), fun hc => absurd (hc ▸ h) (by decide), ?_⟩
  rcases hsp : isSpace c with _ | _
  · rfl
  · exfalso
    unfold isSpace at hsp
    rw [decide_eq_true_eq] at hsp
    unfold isSchemeChar isAsciiAlpha isAsciiDigit at h
    simp only [Bool.or_eq_true, decide_eq_true_eq, beq_iff_eq] at h
    rcases h with ((((h | h) | h) | rfl) | rfl) | rfl
    · omega
    · omega
    · omega
    · exact absurd hsp (by decide)
    · exact absurd hsp (by decide)
    · exact absurd hsp (by decide)

/-!
List-level helper lemmas for the URL proofs.
-/

theorem takeWhile_append_all (P : Char → Bool) (a b : List Char)
    (ha : ∀ c ∈ a, P c = true) : (a ++ b).takeWhile P = a ++ b.takeWhile P := by
  induction a with
  | nil => rfl
  | cons x a ih =>
    rw [List.cons_append, List.takeWhile_cons_of_pos (ha x (List.mem_cons_self _ _)),
      ih (fun c hc => ha c (List.mem_cons_of_mem _ hc)), List.cons_append]

theorem dropWhile_append_all (P : Char → Bool) (a b : List Char)
    (ha : ∀ c ∈ a, P c = true) : (a ++ b).dropWhile P = b.dropWhile P := by
  induction a with
  | nil => rfl
  | cons x a ih =>
    simp only [List.cons_append, List.dropWhile_cons, ha x (List.mem_cons_self _ _)]
    exact ih (fun c hc => ha c (List.mem_cons_of_mem _ hc))

theorem takeWhile_all (P : Char → Bool) (l : List Char)
    (h : ∀ c ∈ l, P c = true) : l.takeWhile P = l := by
  have := takeWhile_append_all P l [] h
  simpa using this

theorem takeWhile_nil_of_head (P : Char → Bool) (x : Char) (t : List Char)
    (h : P x = false) : (x :: t).takeWhile P = [] := by
  simp [List.takeWhile_cons, h]

theorem dropWhile_self_of_head (P : Char → Bool) (l : List Char)
    (h : l = [] ∨ ∃ x t, l = x :: t ∧ P x = false) : l.dropWhile P = l := by
  rcases h with rfl | ⟨x, t, rfl, hx⟩
  · rfl
  · simp [List.dropWhile_cons, hx]

theorem dropWhile_head_false (P : Char → Bool) (l : List Char) :
    l.dropWhile P = [] ∨ ∃ x t, l.dropWhile P = x :: t ∧ P x = false := by
  induction l with
  | nil => exact Or.inl rfl
  | cons y l ih =>
    by_cases hy : P y = true
    · simpa [List.dropWhile_cons, hy] using ih
    · rw [Bool.not_eq_true] at hy
      exact Or.inr ⟨y, l, by simp [List.dropWhile_cons, hy], hy⟩

theorem dropWhile_idem (P : Char → Bool) (l : List Char) :
    (l.dropWhile P).dropWhile P = l.dropWhile P :=
  dropWhile_self_of_head P _ (dropWhile_head_false P l)

theorem dropWhile_eq_drop (P : Char → Bool) (l : List Char) :
    ∃ k, l.dropWhile P = l.drop k := by
  induction l with
  | nil => exact ⟨0, rfl⟩
  | cons x l ih =>
    by_cases hx : P x = true
    · obtain ⟨k, hk⟩ := ih
      exact ⟨k + 1, by simpa [List.dropWhile_cons, hx] using hk⟩
    · rw [Bool.not_eq_true] at hx
      exact ⟨0, by simp [List.dropWhile_cons, hx]⟩

theorem rstripBy_eq_take (P : Char → Bool) (l : List Char) :
    ∃ k, rstripBy P l = l.take k := by
  obtain ⟨k, hk⟩ := dropWhile_eq_drop P l.reverse
  refine ⟨l.length - k, ?_⟩
  rw [rstripBy, hk, List.reverse_drop, List.reverse_reverse, List.length_reverse]

theorem mem_rstripBy (P : Char → Bool) (l : List Char) (c : Char)
    (h : c ∈ rstripBy P l) : c ∈ l := by
  rw [rstripBy, List.mem_reverse] at h
  rw [← List.mem_reverse]
  exact (List.dropWhile_sublist _).mem h

theorem rstripBy_idem (P : Char → Bool) (l : List Char) :
    rstripBy P (rstripBy P l) = rstripBy P l := by
  simp [rstripBy, dropWhile_idem]

theorem lower_append (a b : List Char) : lower (a ++ b) = lower a ++ lower b :=
  List.map_append lowerChar a b

theorem lower_idem (l : List Char) : lower (lower l) = lower l := by
  simp only [lower, List.map_map]
  exact List.map_congr_left (fun c _ => lowerChar_idem c)

theorem lower_length (l : List Char) : (lower l).length = l.length :=
  List.length_map l lowerChar

theorem lower_take (l : List Char) (k : Nat) : (lower l).take k = lower (l.take k) :=
  (List.map_take lowerChar l k).symm

theorem lower_drop (l : List Char) (k : Nat) : (lower l).drop k = lower (l.drop k) :=
  (List.map_drop lowerChar l k).symm

theorem lower_reverse (l : List Char) : (lower l).reverse = lower l.reverse :=
  (List.map_reverse lowerChar l).symm

theorem stripWs_eq_self (l : List Char) (h : ∀ c ∈ l, isSpace c = false) :
    stripWs l = l := by
  rw [stripWs, dropWhile_self_of_head isSpace l]
  · rw [rstripBy, dropWhile_self_of_head isSpace l.reverse, List.reverse_reverse]
    cases hr : l.reverse with
    | nil => exact Or.inl rfl
    | cons x t =>
      refine Or.inr ⟨x, t, rfl, h x ?_⟩
      rw [← List.mem_reverse, hr]
      exact List.mem_cons_self _ _
  · cases l with
    | nil => exact Or.inl rfl
    | cons x t => exact Or.inr ⟨x, t, rfl, h x (List.mem_cons_self _ _)⟩

theorem stripWs_idem (l : List Char) : stripWs (stripWs l) = stripWs l := by
  rw [stripWs]
  have h1 : (stripWs l).dropWhile isSpace = stripWs l := by
    apply dropWhile_self_of_head
    obtain ⟨k, hk⟩ := rstripBy_eq_take isSpace (l.dropWhile isSpace)
    rw [stripWs, hk]
    rcases dropWhile_head_false isSpace l with hnil | ⟨x, t, hxt, hx⟩
    · rw [hnil]
      simp
    · rw [hxt]
      cases k with
      | zero => simp
      | succ k => exact Or.inr ⟨x, t.take k, by simp, hx⟩
  rw [h1, stripWs, rstripBy_idem]

theorem asString_inj (a b : List Char) (h : a.asString = b.asString) : a = b :=
  congrArg String.toList h

theorem takeWhile_eq_take (P : Char → Bool) (l : List Char) :
    ∃ k, l.takeWhile P = l.take k := by
  induction l with
  | nil => exact ⟨0, rfl⟩
  | cons x t ih =>
    by_cases hx : P x = true
    · obtain ⟨k, hk⟩ := ih
      exact ⟨k + 1, by simp [List.takeWhile_cons, hx, hk]⟩
    · rw [Bool.not_eq_true] at hx
      exact ⟨0, by simp [List.takeWhile_cons, hx]⟩

theorem contains_iff_mem (l : List Char) (c : Char) : l.contains c = true ↔ c ∈ l := by
  simp [List.contains, List.elem_iff]

theorem mem_lower_nonletter (l : List Char) (d : Char)
    (hd : d.toNat < 65 ∨ (90 < d.toNat ∧ d.toNat < 97) ∨ 122 < d.toNat) :
    d ∈ lower l ↔ d ∈ l := by
  rw [lower, List.mem_map]
  constructor
  · rintro ⟨c, hc, he⟩
    rwa [(lowerChar_eq_iff_nonletter d hd c).mp he] at hc
  · intro h
    exact ⟨d, h, (lowerChar_eq_iff_nonletter d hd d).mpr rfl⟩

theorem contains_lower_nonletter (l : List Char) (d : Char)
    (hd : d.toNat < 65 ∨ (90 < d.toNat ∧ d.toNat < 97) ∨ 122 < d.toNat) :
    (lower l).contains d = l.contains d := by
  rcases hc : l.contains d with _ | _
  · rw [← Bool.not_eq_true] at hc ⊢
    rw [contains_iff_mem] at hc ⊢
    rw [mem_lower_nonletter l d hd]
    exact hc
  · rw [contains_iff_mem] at hc ⊢
    rw [mem_lower_nonletter l d hd]
    exact hc

theorem rstripBy_lower_comm (P : Char → Bool) (l : List Char)
    (hP : ∀ c, P (lowerChar c) = P c) :
    rstripBy P (lower l) = lower (rstripBy P l) := by
  have hfun : (P ∘ lowerChar) = P := funext hP
  rw [rstripBy, rstripBy, lower, ← List.map_reverse, List.dropWhile_map, hfun,
    ← List.map_reverse]
  rfl

theorem rstripSlashes_lower_comm (l : List Char) :
    rstripSlashes (lower l) = lower (rstripSlashes l) :=
  rstripBy_lower_comm (fun c => c == '/') l (fun c => lowerChar_beq_nonletter '/' (by decide) c)

theorem drop_append_cons (a b : List Char) (c : Char) :
    (a ++ c :: b).drop (a.length + 1) = b := by
  have h1 : a ++ c :: b = (a ++ [c]) ++ b := by simp
  have h2 : (a ++ [c]).length = a.length + 1 := by simp
  rw [h1, ← h2, List.drop_left]

theorem nil_or_slash_head_of_netlocEnd (l : List Char)
    (h : l = [] ∨ ∃ x t, l = x :: t ∧ isNetlocEnd x = true) :
    l = [] ∨ (∃ t, l = '/' :: t) ∨ (∃ t, l = '?' :: t) ∨ (∃ t, l = '#' :: t) := by
  rcases h with rfl | ⟨x, t, rfl, hx⟩
  · exact Or.inl rfl
  · rw [isNetlocEnd, Bool.or_eq_true, Bool.or_eq_true] at hx
    rcases hx with (hx | hx) | hx <;> rw [beq_iff_eq] at hx <;> subst hx
    · exact Or.inr (Or.inl ⟨t, rfl⟩)
    · exact Or.inr (Or.inr (Or.inl ⟨t, rfl⟩))
    · exact Or.inr (Or.inr (Or.inr ⟨t, rfl⟩))

theorem splitFragQuery_shape (rest : List Char)
    (h : rest = [] ∨ (∃ t, rest = '/' :: t) ∨ (∃ t, rest = '?' :: t) ∨
      (∃ t, rest = '#' :: t)) :
    (splitFragQuery rest).1 = [] ∨ ∃ t, (splitFragQuery rest).1 = '/' :: t := by
  rcases h with rfl | ⟨t, rfl⟩ | ⟨t, rfl⟩ | ⟨t, rfl⟩
  · exact Or.inl rfl
  · rw [splitFragQuery]
    by_cases h1 : (('/' :: t).contains '#') = true
    · rw [if_pos h1]
      have ht : List.takeWhile (fun c => c != '#') ('/' :: t) =
          '/' :: List.takeWhile (fun c => c != '#') t := by
        rw [List.takeWhile_cons_of_pos (by decide)]
      by_cases h2 : (('/' :: t).takeWhile (fun c => c != '#')).contains '?' = true
      · rw [if_pos h2, ht, List.takeWhile_cons_of_pos (by decide)]
        exact Or.inr ⟨_, rfl⟩
      · rw [if_neg h2, ht]
        exact Or.inr ⟨_, rfl⟩
    · rw [if_neg h1]
      by_cases h2 : (('/' :: t).contains '?') = true
      · rw [if_pos h2, List.takeWhile_cons_of_pos (by decide)]
        exact Or.inr ⟨_, rfl⟩
      · rw [if_neg h2]
        exact Or.inr ⟨t, rfl⟩
  · rw [splitFragQuery]
    by_cases h1 : (('?' :: t).contains '#') = true
    · rw [if_pos h1]
      have ht : List.takeWhile (fun c => c != '#') ('?' :: t) =
          '?' :: List.takeWhile (fun c => c != '#') t := by
        rw [List.takeWhile_cons_of_pos (by decide)]
      have h2 : (('?' :: t).takeWhile (fun c => c != '#')).contains '?' = true := by
        rw [ht, contains_iff_mem]
        exact List.mem_cons_self _ _
      rw [if_pos h2, ht, takeWhile_nil_of_head _ _ _ (by decide)]
      exact Or.inl rfl
    · rw [if_neg h1]
      have h2 : (('?' :: t).contains '?') = true := by
        rw [contains_iff_mem]
        exact List.mem_cons_self _ _
      rw [if_pos h2, takeWhile_nil_of_head _ _ _ (by decide)]
      exact Or.inl rfl
  · rw [splitFragQuery]
    have h1 : (('#' :: t).contains '#') = true := by
      rw [contains_iff_mem]
      exact List.mem_cons_self _ _
    rw [if_pos h1, takeWhile_nil_of_head _ _ _ (by decide)]
    exact Or.inl rfl

theorem splitFragQuery_no_marks (rest : List Char)
    (h1 : rest.contains '#' = false) (h2 : rest.contains '?' = false) :
    splitFragQuery rest = (rest, [], []) := by
  simp only [splitFragQuery, h1, h2, Bool.false_eq_true, if_false]

theorem takeWhile_sub_contains (P : Char → Bool) (l : List Char) (d : Char)
    (h : l.contains d = false) : (l.takeWhile P).contains d = false := by
  rw [← Bool.not_eq_true, contains_iff_mem] at h ⊢
  exact fun hm => h ((List.takeWhile_sublist P).mem hm)

theorem takeWhile_ne_no_contains (d : Char) (l : List Char) :
    (l.takeWhile (fun c => c != d)).contains d = false := by
  rw [← Bool.not_eq_true, contains_iff_mem]
  intro hm
  have := List.mem_takeWhile_imp hm
  rw [bne_iff_ne] at this
  exact this rfl

theorem splitFragQuery_fst_no_marks (rest : List Char) :
    (splitFragQuery rest).1.contains '#' = false ∧
    (splitFragQuery rest).1.contains '?' = false := by
  rw [splitFragQuery]
  by_cases h1 : (rest.contains '#') = true
  · rw [if_pos h1]
    by_cases h2 : (rest.takeWhile (fun c => c != '#')).contains '?' = true
    · rw [if_pos h2]
      exact ⟨takeWhile_sub_contains _ _ _ (takeWhile_ne_no_contains '#' rest),
        takeWhile_ne_no_contains '?' _⟩
    · rw [if_neg h2]
      rw [Bool.not_eq_true] at h2
      exact ⟨takeWhile_ne_no_contains '#' rest, h2⟩
  · rw [if_neg h1]
    rw [Bool.not_eq_true] at h1
    by_cases h2 : (rest.contains '?') = true
    · rw [if_pos h2]
      exact ⟨takeWhile_sub_contains _ _ _ h1, takeWhile_ne_no_contains '?' rest⟩
    · rw [if_neg h2]
      rw [Bool.not_eq_true] at h2
      exact ⟨h1, h2⟩

theorem lower_eq_nil_iff (l : List Char) : lower l = [] ↔ l = [] :=
  List.map_eq_nil_iff

theorem all_lower (l : List Char) (p : Char → Bool)
    (hp : ∀ c, p (lowerChar c) = p c) (h : l.all p = true) : (lower l).all p = true := by
  rw [List.all_eq_true] at h ⊢
  rintro x hx
  rw [lower, List.mem_map] at hx
  obtain ⟨c, hc, rfl⟩ := hx
  rw [hp]
  exact h c hc

theorem splitScheme_facts (url : List Char) :
    (splitScheme url).1 = lower (splitScheme url).1 ∧
    (splitScheme url).1.all isSchemeChar = true ∧
    ((splitScheme url).1 ≠ [] →
      isAsciiAlpha ((splitScheme url).1.headD ' ') = true) := by
  rw [splitScheme]
  split_ifs with h
  · obtain ⟨hlen, hne, hhead, hall⟩ := h
    refine ⟨(lower_idem _).symm, all_lower _ _ isSchemeChar_lowerChar hall, fun _ => ?_⟩
    cases hu : url with
    | nil =>
      subst hu
      exact absurd rfl hne
    | cons x t =>
      subst hu
      by_cases hx : (x != ':') = true
      · show isAsciiAlpha
          ((lower (List.takeWhile (fun c => c != ':') (x :: t))).headD ' ') = true
        rw [List.takeWhile_cons, if_pos hx, lower, List.map_cons]
        simp only [List.headD_cons]
        rw [isAsciiAlpha_lowerChar]
        simpa using hhead
      · rw [Bool.not_eq_true] at hx
        rw [List.takeWhile_cons_of_neg (by rw [hx]; exact Bool.false_ne_true)] at hne
        exact absurd rfl hne
  · exact ⟨rfl, rfl, fun hne => absurd rfl hne⟩

theorem urlsplitL_facts (url : List Char) (r : SplitUrl) (h : urlsplitL url = .ok r) :
    r.scheme = lower r.scheme ∧
    r.scheme.all isSchemeChar = true ∧
    (r.scheme ≠ [] → isAsciiAlpha (r.scheme.headD ' ') = true) ∧
    r.netloc.all (fun c => !isNetlocEnd c) = true ∧
    ¬((r.netloc.contains '[' = true ∧ ¬ r.netloc.contains ']' = true) ∨
      (r.netloc.contains ']' = true ∧ ¬ r.netloc.contains '[' = true)) ∧
    r.path.contains '#' = false ∧
    r.path.contains '?' = false ∧
    (r.netloc ≠ [] → r.path = [] ∨ ∃ t, r.path = '/' :: t) := by
  have hsf := splitScheme_facts url
  simp only [urlsplitL] at h
  split_ifs at h with h1 h2
  · rw [Except.ok.injEq] at h
    subst h
    refine ⟨hsf.1, hsf.2.1, hsf.2.2, ?_, h2, (splitFragQuery_fst_no_marks _).1,
      (splitFragQuery_fst_no_marks _).2, fun _ => ?_⟩
    · show (List.takeWhile (fun c => !isNetlocEnd c)
          ((splitScheme url).2.drop 2)).all (fun c => !isNetlocEnd c) = true
      rw [List.all_eq_true]
      intro x hx
      have h3 := List.mem_takeWhile_imp hx
      exact h3
    · show (splitFragQuery (List.dropWhile (fun c => !isNetlocEnd c)
          ((splitScheme url).2.drop 2))).1 = [] ∨
        ∃ t, (splitFragQuery (List.dropWhile (fun c => !isNetlocEnd c)
          ((splitScheme url).2.drop 2))).1 = '/' :: t
      apply splitFragQuery_shape
      apply nil_or_slash_head_of_netlocEnd
      rcases dropWhile_head_false (fun c => !isNetlocEnd c) ((splitScheme url).2.drop 2) with
        hnil | ⟨x, t, hxt, hx⟩
      · exact Or.inl hnil
      · exact Or.inr ⟨x, t, hxt, by simpa using hx⟩
  · rw [Except.ok.injEq] at h
    subst h
    refine ⟨hsf.1, hsf.2.1, hsf.2.2, rfl, by simp, (splitFragQuery_fst_no_marks _).1,
      (splitFragQuery_fst_no_marks _).2, fun hne => absurd rfl hne⟩

theorem splitParamsPy_no_semi (scheme path : List Char)
    (h : path.contains ';' = false) : splitParamsPy scheme path = (path, []) := by
  rw [splitParamsPy, if_neg]
  intro hc
  rw [h] at hc
  exact Bool.false_ne_true hc.2

theorem urlparseL_of_urlsplitL (url : List Char) (r : SplitUrl)
    (h : urlsplitL url = .ok r) (hsemi : r.path.contains ';' = false) :
    urlparseL url = .ok ⟨r.scheme, r.netloc, r.path, [], r.query, r.fragment⟩ := by
  simp only [urlparseL, h, splitParamsPy_no_semi _ _ hsemi]

theorem urlparseL_inv (url : List Char) (p : PyParsed) (h : urlparseL url = .ok p) :
    ∃ r, urlsplitL url = .ok r ∧ p.scheme = r.scheme ∧ p.netloc = r.netloc ∧
      p.path = (splitParamsPy r.scheme r.path).1 := by
  rw [urlparseL] at h
  cases hs : urlsplitL url with
  | error e =>
    rw [hs] at h
    exact absurd h (by simp)
  | ok r =>
    rw [hs] at h
    simp only [Except.ok.injEq] at h
    exact ⟨r, rfl, by rw [← h], by rw [← h], by rw [← h]⟩

theorem splitLastSlash_cons_slash (t : List Char) :
    ∃ b, splitLastSlash ('/' :: t) = some ([], b) ∨
      ∃ a, splitLastSlash ('/' :: t) = some ('/' :: a, b) := by
  cases ht : splitLastSlash t with
  | none => exact ⟨t, Or.inl (by simp [splitLastSlash, ht])⟩
  | some pr => exact ⟨pr.2, Or.inr ⟨pr.1, by simp [splitLastSlash, ht]⟩⟩

theorem splitParamsPy_fst_shape (scheme path : List Char)
    (h : path = [] ∨ ∃ t, path = '/' :: t) :
    (splitParamsPy scheme path).1 = [] ∨ ∃ t, (splitParamsPy scheme path).1 = '/' :: t := by
  rw [splitParamsPy]
  split_ifs with hg
  · rcases h with rfl | ⟨t, rfl⟩
    · exact absurd hg.2 (by decide)
    · obtain ⟨b, hb | ⟨a, ha⟩⟩ := splitLastSlash_cons_slash t
      · simp only [hb]
        split_ifs with hb2
        · exact Or.inr ⟨_, by rw [List.nil_append]⟩
        · exact Or.inr ⟨t, rfl⟩
      · simp only [ha]
        split_ifs with hb2
        · exact Or.inr ⟨_, by rw [List.cons_append]⟩
        · exact Or.inr ⟨t, rfl⟩
  · exact h

theorem rstripSlashes_shape (p : List Char) (h : p = [] ∨ ∃ t, p = '/' :: t) :
    rstripSlashes p = [] ∨ ∃ t, rstripSlashes p = '/' :: t := by
  obtain ⟨k, hk⟩ := rstripBy_eq_take (fun c => c == '/') p
  rw [rstripSlashes, hk]
  rcases h with rfl | ⟨t, rfl⟩
  · left
    simp
  · cases k with
    | zero => exact Or.inl rfl
    | succ k => exact Or.inr ⟨t.take k, rfl⟩

theorem lower_shape (p : List Char) (h : p = [] ∨ ∃ t, p = '/' :: t) :
    lower p = [] ∨ ∃ t, lower p = '/' :: t := by
  rcases h with rfl | ⟨t, rfl⟩
  · exact Or.inl rfl
  · exact Or.inr ⟨lower t, by rw [lower, List.map_cons]; rfl⟩

theorem urlunsplitL_netloc (s n P : List Char) (hn : n ≠ [])
    (hP : P = [] ∨ ∃ t, P = '/' :: t) :
    urlunsplitL s n P =
      (if s ≠ [] then s ++ [':'] else []) ++ '/' :: '/' :: (n ++ P) := by
  simp only [urlunsplitL]
  rw [if_pos (Or.inl hn)]
  have hp2 : ¬(P ≠ [] ∧ P.take 1 ≠ ['/']) := by
    rcases hP with rfl | ⟨t, rfl⟩
    · exact fun hc => hc.1 rfl
    · exact fun hc => hc.2 rfl
  rw [if_neg hp2]
  by_cases hs : s = []
  · rw [if_neg (fun hc => hc hs), if_neg (fun hc => hc hs), List.nil_append]
  · rw [if_pos hs, if_pos hs, List.append_assoc]
    rfl

theorem contains_false_rstrip_lower (l : List Char) (d : Char)
    (hd : d.toNat < 65 ∨ (90 < d.toNat ∧ d.toNat < 97) ∨ 122 < d.toNat)
    (h : l.contains d = false) :
    (lower (rstripSlashes l)).contains d = false := by
  rw [contains_lower_nonletter _ d hd]
  rw [← Bool.not_eq_true, contains_iff_mem] at h ⊢
  exact fun hm => h (mem_rstripBy _ _ _ hm)

theorem normalize_url_eq_unsplit (u : String) (p : PyParsed)
    (hu : urlparseL (stripWs u.toList) = .ok p) :
    normalize_url u = (urlunsplitL (lower p.scheme) (lower p.netloc)
      (lower (rstripSlashes p.path))).asString := by
  simp only [normalize_url, normalizeUrlL, hu]

theorem forall_isSpace_false_lower (l : List Char) (h : ∀ c ∈ l, isSpace c = false) :
    ∀ c ∈ lower l, isSpace c = false := by
  intro c hc
  rw [lower, List.mem_map] at hc
  obtain ⟨d, hd, rfl⟩ := hc
  rw [isSpace_lowerChar]
  exact h d hd

theorem splitScheme_prepend (s rest : List Char) (hs : s ≠ [])
    (hall : s.all isSchemeChar = true)
    (hhead : isAsciiAlpha (s.headD ' ') = true) :
    splitScheme (s ++ ':' :: rest) = (lower s, rest) := by
  have hsc : ∀ c ∈ s, (fun c => c != ':') c = true := by
    intro c hc
    rw [List.all_eq_true] at hall
    have h1 := (isSchemeChar_ne_reserved c (hall c hc)).1
    simpa [bne_iff_ne] using h1
  have hpre : (s ++ ':' :: rest).takeWhile (fun c => c != ':') = s := by
    rw [takeWhile_append_all _ _ _ hsc, takeWhile_nil_of_head _ _ _ (by decide),
      List.append_nil]
  have hhd : (s ++ ':' :: rest).headD ' ' = s.headD ' ' := by
    cases s with
    | nil => exact absurd rfl hs
    | cons x t => rfl
  rw [splitScheme, hpre]
  rw [if_pos ⟨by simp only [List.length_append, List.length_cons]; omega, hs,
    by rw [hhd]; exact hhead, hall⟩, drop_append_cons]

theorem urlsplitL_roundtrip (s n P : List Char)
    (hs : s ≠ []) (hall : s.all isSchemeChar = true)
    (hhead : isAsciiAlpha (s.headD ' ') = true)
    (hnend : n.all (fun c => !isNetlocEnd c) = true)
    (hbr : ¬((n.contains '[' = true ∧ ¬ n.contains ']' = true) ∨
      (n.contains ']' = true ∧ ¬ n.contains '[' = true)))
    (hshape : P = [] ∨ ∃ t, P = '/' :: t)
    (hPh : P.contains '#' = false) (hPq : P.contains '?' = false) :
    urlsplitL (s ++ ':' :: '/' :: '/' :: (n ++ P)) = .ok ⟨lower s, n, P, [], []⟩ := by
  have hss := splitScheme_prepend s ('/' :: '/' :: (n ++ P)) hs hall hhead
  have hn2 : ∀ c ∈ n, (fun c => !isNetlocEnd c) c = true := by
    rw [List.all_eq_true] at hnend
    exact hnend
  have hnet : (n ++ P).takeWhile (fun c => !isNetlocEnd c) = n := by
    rw [takeWhile_append_all _ _ _ hn2]
    rcases hshape with rfl | ⟨t, rfl⟩
    · simp
    · rw [takeWhile_nil_of_head _ _ _ (by decide), List.append_nil]
  have hrest : (n ++ P).dropWhile (fun c => !isNetlocEnd c) = P := by
    rw [dropWhile_append_all _ _ _ hn2]
    rcases hshape with rfl | ⟨t, rfl⟩
    · rfl
    · exact dropWhile_self_of_head _ _ (Or.inr ⟨'/', t, rfl, by decide⟩)
  have htake : List.take 2 ('/' :: '/' :: (n ++ P)) = ['/', '/'] := rfl
  have hdrop : List.drop 2 ('/' :: '/' :: (n ++ P)) = n ++ P := rfl
  simp only [urlsplitL, hss, htake, hdrop, hnet, hrest]
  rw [if_pos trivial, if_neg hbr, splitFragQuery_no_marks P hPh hPq]

theorem mem_unsplit_parts (c : Char) (s n P : List Char)
    (h : c ∈ s ++ ':' :: '/' :: '/' :: (n ++ P)) :
    c ∈ s ∨ c = ':' ∨ c = '/' ∨ c ∈ n ∨ c ∈ P := by
  simp only [List.mem_append, List.mem_cons] at h
  tauto

theorem stripWs_unsplit (s n P : List Char)
    (hall : s.all isSchemeChar = true)
    (hn : ∀ c ∈ n, isSpace c = false) (hP : ∀ c ∈ P, isSpace c = false) :
    stripWs (s ++ ':' :: '/' :: '/' :: (n ++ P)) =
      s ++ ':' :: '/' :: '/' :: (n ++ P) := by
  apply stripWs_eq_self
  intro c hc
  rcases mem_unsplit_parts c s n P hc with h | rfl | rfl | h | h
  · rw [List.all_eq_true] at hall
    exact (isSchemeChar_ne_reserved c (hall c h)).2.2.2.2
  · decide
  · decide
  · exact hn c h
  · exact hP c h

theorem normalizeUrlL_fixpoint (s n P : List Char)
    (hs : s ≠ []) (hlow : lower s = s) (hall : s.all isSchemeChar = true)
    (hhead : isAsciiAlpha (s.headD ' ') = true)
    (hnne : n ≠ []) (hnlow : lower n = n)
    (hnend : n.all (fun c => !isNetlocEnd c) = true)
    (hbr : ¬((n.contains '[' = true ∧ ¬ n.contains ']' = true) ∨
      (n.contains ']' = true ∧ ¬ n.contains '[' = true)))
    (hnsp : ∀ c ∈ n, isSpace c = false)
    (hshape : P = [] ∨ ∃ t, P = '/' :: t)
    (hPlow : lower P = P) (hPr : rstripSlashes P = P)
    (hPh : P.contains '#' = false) (hPq : P.contains '?' = false)
    (hPsemi : P.contains ';' = false)
    (hPsp : ∀ c ∈ P, isSpace c = false) :
    normalizeUrlL (urlunsplitL s n P) = urlunsplitL s n P := by
  have hO : urlunsplitL s n P = s ++ ':' :: '/' :: '/' :: (n ++ P) := by
    rw [urlunsplitL_netloc s n P hnne hshape, if_pos hs, List.append_assoc]
    rfl
  rw [hO]
  have h1 := stripWs_unsplit s n P hall hnsp hPsp
  have h2 := urlsplitL_roundtrip s n P hs hall hhead hnend hbr hshape hPh hPq
  rw [hlow] at h2
  have h3 : urlparseL (s ++ ':' :: '/' :: '/' :: (n ++ P)) =
      .ok ⟨s, n, P, [], [], []⟩ := urlparseL_of_urlsplitL _ _ h2 hPsemi
  simp only [normalizeUrlL, h1, h3]
  rw [hPr, hPlow, hlow, hnlow, hO]

theorem toList_asString (l : List Char) : (List.asString l).toList = l := rfl

theorem urlunsplitL_inj_path (s n P1 P2 : List Char) (hn : n ≠ [])
    (h1 : P1 = [] ∨ ∃ t, P1 = '/' :: t) (h2 : P2 = [] ∨ ∃ t, P2 = '/' :: t)
    (he : urlunsplitL s n P1 = urlunsplitL s n P2) : P1 = P2 := by
  rw [urlunsplitL_netloc s n P1 hn h1, urlunsplitL_netloc s n P2 hn h2] at he
  have he2 := List.append_cancel_left he
  injection he2 with ha he3
  injection he3 with hb he4
  exact List.append_cancel_left he4

theorem urlparseL_path_shape (url : List Char) (p : PyParsed)
    (h : urlparseL url = .ok p) (hn : p.netloc ≠ []) :
    p.path = [] ∨ ∃ t, p.path = '/' :: t := by
  obtain ⟨r, hr, hsch, hnet, hpath⟩ := urlparseL_inv url p h
  rw [hpath]
  apply splitParamsPy_fst_shape
  exact (urlsplitL_facts url r hr).2.2.2.2.2.2.2 (by rw [← hnet]; exact hn)

/-- C5 counterexample: `normalize_url` lowercases the path as well as the
scheme and host, so two URLs whose slash-stripped paths differ (here `/X`
versus `/x`) can still normalize to the same string, refuting the claim
that differing paths always normalize unequal. -/
theorem normalize_url_lowercases_path :
    (∃ p q : PyParsed,
      urlparseL (stripWs ("http://a.com/X").toList) = .ok p ∧
      urlparseL (stripWs ("http://a.com/x").toList) = .ok q ∧
      rstripSlashes p.path ≠ rstripSlashes q.path) ∧
    normalize_url "http://a.com/X" = normalize_url "http://a.com/x" := by
  constructor
  · exact ⟨⟨"http".toList, "a.com".toList, "/X".toList, [], [], []⟩,
      ⟨"http".toList, "a.com".toList, "/x".toList, [], [], []⟩, rfl, rfl, by decide⟩
  · decide

/-- C5 (amended): `normalize_url` reassembles the lowercased scheme, the
lowercased host and the lowercased slash-stripped path of the parsed,
stripped input — the path is lowercased too, not only scheme and host.
Consequently two URLs whose parses agree on all three lowered components
(so differing only by case anywhere, trailing slashes, params, query or
fragment) normalize equal, and two URLs whose parses agree on lowered
scheme and host, the host being nonempty, normalize unequal whenever
their lowered slash-stripped paths differ. -/
theorem normalize_url_components (u v : String) (p q : PyParsed)
    (hu : urlparseL (stripWs u.toList) = .ok p)
    (hv : urlparseL (stripWs v.toList) = .ok q) :
    normalize_url u = (urlunsplitL (lower p.scheme) (lower p.netloc)
      (lower (rstripSlashes p.path))).asString ∧
    (lower p.scheme = lower q.scheme → lower p.netloc = lower q.netloc →
      lower (rstripSlashes p.path) = lower (rstripSlashes q.path) →
      normalize_url u = normalize_url v) ∧
    (lower p.scheme = lower q.scheme → lower p.netloc = lower q.netloc →
      p.netloc ≠ [] → lower (rstripSlashes p.path) ≠ lower (rstripSlashes q.path) →
      normalize_url u ≠ normalize_url v) := by
  have h1 := normalize_url_eq_unsplit u p hu
  have h2 := normalize_url_eq_unsplit v q hv
  refine ⟨h1, ?_, ?_⟩
  · intro e1 e2 e3
    rw [h1, h2, e1, e2, e3]
  · intro e1 e2 hne hpne heq
    rw [h1, h2] at heq
    have heq2 := asString_inj _ _ heq
    rw [e1, e2] at heq2
    have hq_n : q.netloc ≠ [] := by
      intro hq
      apply hne
      apply (lower_eq_nil_iff _).mp
      rw [e2, hq]
      rfl
    have hnlow : lower q.netloc ≠ [] := fun hc => hq_n ((lower_eq_nil_iff _).mp hc)
    exact hpne (urlunsplitL_inj_path _ _ _ _ hnlow
      (lower_shape _ (rstripSlashes_shape _ (urlparseL_path_shape _ p hu hne)))
      (lower_shape _ (rstripSlashes_shape _ (urlparseL_path_shape _ q hv hq_n))) heq2)

/-- Witness for C5: two URLs differing only by scheme/host case, a
trailing slash and a query string normalize to the same string. -/
theorem normalize_url_components_witness :
    normalize_url "HTTP://A.com/x/" = normalize_url "http://a.com/x?q=1" :=
  (normalize_url_components "HTTP://A.com/x/" "http://a.com/x?q=1"
    ⟨"http".toList, "A.com".toList, "/x/".toList, [], [], []⟩
    ⟨"http".toList, "a.com".toList, "/x".toList, [], "q=1".toList, []⟩
    rfl rfl).2.1 (by decide) (by decide) (by decide)

/-- C6 counterexample: `normalize_url` is not idempotent.  On
`http://n/a/b;c/` the first pass strips the trailing slash, which exposes
`;c` as a params segment of the last path component on the second pass,
so normalizing again changes the string. -/
theorem normalize_url_not_idempotent :
    normalize_url (normalize_url "http://n/a/b;c/") ≠
      normalize_url "http://n/a/b;c/" := by
  decide

/-- C6 (amended): `normalize_url` is total by construction (the embedding
is a Lean function, mirroring the `try/except` fallback), and it is
idempotent on every input whose stripped form parses with a nonempty
scheme and a nonempty host and whose host and path contain no whitespace
and no `;` in the path.  (The counterexample theorem shows idempotence
fails without the `;` restriction.) -/
theorem normalize_url_idempotent_wellformed (u : String) (r : SplitUrl)
    (hu : urlsplitL (stripWs u.toList) = .ok r)
    (hs : r.scheme ≠ []) (hn : r.netloc ≠ [])
    (hnsp : ∀ c ∈ r.netloc, isSpace c = false)
    (hpsp : ∀ c ∈ r.path, isSpace c = false)
    (hsemi : r.path.contains ';' = false) :
    normalize_url (normalize_url u) = normalize_url u := by
  obtain ⟨hlow, hall, hheadF, hnend, hbr, hPh, hPq, hshapeF⟩ := urlsplitL_facts _ _ hu
  have hparse : urlparseL (stripWs u.toList) =
      .ok ⟨r.scheme, r.netloc, r.path, [], r.query, r.fragment⟩ :=
    urlparseL_of_urlsplitL _ _ hu hsemi
  have h1 : normalize_url u = (urlunsplitL (lower r.scheme) (lower r.netloc)
      (lower (rstripSlashes r.path))).asString :=
    normalize_url_eq_unsplit u _ hparse
  rw [← hlow] at h1
  rw [h1, normalize_url, toList_asString]
  refine congrArg List.asString (normalizeUrlL_fixpoint r.scheme (lower r.netloc)
    (lower (rstripSlashes r.path)) hs hlow.symm hall (hheadF hs)
    (fun hc => hn ((lower_eq_nil_iff _).mp hc)) (lower_idem _)
    (all_lower _ _ (fun c => by rw [isNetlocEnd_lowerChar]) hnend) ?_
    (forall_isSpace_false_lower _ hnsp)
    (lower_shape _ (rstripSlashes_shape _ (hshapeF hn))) (lower_idem _) ?_
    (contains_false_rstrip_lower _ '#' (by decide) hPh)
    (contains_false_rstrip_lower _ '?' (by decide) hPq)
    (contains_false_rstrip_lower _ ';' (by decide) hsemi)
    (forall_isSpace_false_lower _ (fun c hc => hpsp c (mem_rstripBy _ _ _ hc))))
  · rw [contains_lower_nonletter _ '[' (by decide), contains_lower_nonletter _ ']' (by decide)]
    exact hbr
  · rw [rstripSlashes_lower_comm]
    simp only [rstripSlashes]
    rw [rstripBy_idem]

/-- Witness for C6: a well-formed URL with uppercase scheme and host, a
trailing slash and a query string normalizes idempotently. -/
theorem normalize_url_idempotent_wellformed_witness :
    normalize_url (normalize_url "HTTPS://A.com/Research/x/?ref=1") =
      normalize_url "HTTPS://A.com/Research/x/?ref=1" :=
  normalize_url_idempotent_wellformed "HTTPS://A.com/Research/x/?ref=1"
    ⟨"https".toList, "A.com".toList, "/Research/x/".toList, "ref=1".toList, []⟩
    rfl (by decide) (by decide) (by decide) (by decide) (by decide)

end ResearchMcp
